import Mathlib

/-!
Verification development for the Auto WeChat article publisher.

Strings of the Go source are embedded as `List Char` (Go strings are UTF-8
byte sequences; we work at the rune level and make the byte view explicit
through `utf8Bytes` exactly where the source manipulates byte counts, namely
the digest truncation `joined[:limit]`).

Sources embedded here:
  - generator/types.go        : Spec, Draft, Turn
  - generator/session.go      : Session, Propose, Revise, appendTurn
  - generator/postprocess.go  : PostProcess, extractTitle, extractDigest, defaultDigest
  - publisher/publisher.go    : defaultDigest, replaceMarkdownImages,
                                flattenListsForWeChat, convertHeadingsForWeChat,
                                normalizeForWeChat, digest resolution of PublishDraft
  - server/server.go          : sessionStore (set/get/heartbeat/purge, upload cleanup)

External collaborators (LLM call, HTTP uploads, filesystem stat/join) are
oracles passed as function parameters.  Regex scans are embedded as direct
character scanners implementing the semantics of Go's regexp package
(leftmost match, greedy/lazy operators) for the concrete patterns appearing
in the source; scanners that resume after a match take a fuel argument that
callers instantiate with the input length (each step consumes at least one
character, so that fuel is always sufficient).
-/

namespace AWAP

/-- Go's unicode.IsSpace (White_Space property), used by strings.TrimSpace
and strings.Fields. -/
def isGoSpace (c : Char) : Bool :=
  c = ' ' || c = '\t' || c = '\n' || (c.toNat = 11) || (c.toNat = 12) || c = '\r' ||
  c.toNat = 0x85 || c.toNat = 0xA0 || c.toNat = 0x1680 ||
  (0x2000 ≤ c.toNat && c.toNat ≤ 0x200A) ||
  c.toNat = 0x2028 || c.toNat = 0x2029 || c.toNat = 0x202F ||
  c.toNat = 0x205F || c.toNat = 0x3000

/-- The `\s` character class of Go's regexp package: the Perl class
[\t\n\f\r ] (RE2 syntax; vertical tab is NOT included). -/
def isRegexSpace (c : Char) : Bool :=
  c = '\t' || c = '\n' || (c.toNat = 12) || c = '\r' || c = ' '

/-- strings.TrimSpace. -/
def trimSpace (cs : List Char) : List Char :=
  ((cs.dropWhile isGoSpace).reverse.dropWhile isGoSpace).reverse

/-- strings.Fields: the maximal runs of non-whitespace characters. -/
def fieldsAux : List Char → List Char → List (List Char)
  | acc, [] => if acc.isEmpty then [] else [acc.reverse]
  | acc, c :: cs =>
    if isGoSpace c then
      if acc.isEmpty then fieldsAux [] cs else acc.reverse :: fieldsAux [] cs
    else
      fieldsAux (c :: acc) cs

/-- strings.Fields. -/
def fields (cs : List Char) : List (List Char) := fieldsAux [] cs

/-- strings.Join(ts, " "). -/
def joinSpace (ts : List (List Char)) : List Char := List.intercalate [' '] ts

/-- UTF-8 encoding of one code point (as the list of its bytes). -/
def utf8EncodeChar (c : Char) : List Nat :=
  let n := c.toNat
  if n < 0x80 then [n]
  else if n < 0x800 then [0xC0 + n / 0x40, 0x80 + n % 0x40]
  else if n < 0x10000 then
    [0xE0 + n / 0x1000, 0x80 + (n / 0x40) % 0x40, 0x80 + n % 0x40]
  else
    [0xF0 + n / 0x40000, 0x80 + (n / 0x1000) % 0x40, 0x80 + (n / 0x40) % 0x40,
     0x80 + n % 0x40]

/-- The UTF-8 byte view of a string; Go's len() and slicing act on these bytes. -/
def utf8Bytes (cs : List Char) : List Nat := (cs.map utf8EncodeChar).flatten

/-- splitNl: the lines of a string, split at each newline character
(exactly strings.Split(s, "\n")). -/
def splitNl : List Char → List (List Char)
  | [] => [[]]
  | c :: cs =>
    if c = '\n' then [] :: splitNl cs
    else
      match splitNl cs with
      | [] => [[c]]
      | l :: ls => (c :: l) :: ls

/-- take the current line: the characters before the next newline. -/
def takeLine (cs : List Char) : List Char := cs.takeWhile (fun c => !(c = '\n'))

/-- startsWithPat pat cs: cs begins with the literal pattern pat. -/
def startsWithPat : List Char → List Char → Bool
  | [], _ => true
  | _ :: _, [] => false
  | p :: ps, c :: cs => p = c && startsWithPat ps cs

/-- splitAtPat pat cs: split cs at the first occurrence of the literal pat,
returning the text before it and the text after it. -/
def splitAtPat (pat : List Char) : List Char → Option (List Char × List Char)
  | [] => none
  | c :: cs =>
    if startsWithPat pat (c :: cs) then some ([], (c :: cs).drop pat.length)
    else (splitAtPat pat cs).map (fun pr => (c :: pr.1, pr.2))

/-- splitAtChar c cs: split cs at the first occurrence of the character c
(the greedy match of a negated character class followed by the literal c). -/
def splitAtChar (ch : Char) : List Char → Option (List Char × List Char)
  | [] => none
  | c :: cs =>
    if c = ch then some ([], cs)
    else (splitAtChar ch cs).map (fun pr => (c :: pr.1, pr.2))

/-! ## Generator data model (generator/types.go) -/

/-- Spec describes the intended article (generator/types.go). -/
structure Spec where
  topic : List Char
  outline : List (List Char)
  words : Int
  constraints : List (List Char)
deriving Repr, DecidableEq

/-- Draft is the model's output (generator/types.go).  The digest field holds
the UTF-8 bytes of the Go string because the source truncates it at byte
granularity (possibly splitting a rune). -/
structure Draft where
  title : List Char
  digest : List Nat
  markdown : List Char
  coverHint : List Char
  inlineImageHints : List (List Char)
deriving Repr, DecidableEq

/-- Turn records one comment-driven revision (generator/types.go).
CreatedAt (a time.Time) is embedded as a Nat timestamp. -/
structure Turn where
  comment : List Char
  draft : Draft
  summary : List Char
  createdAt : Nat
deriving Repr, DecidableEq

/-! ## Draft post-processor (generator/postprocess.go) -/

/-- Scanner for (.+)$ at the current position: the maximal nonempty run of
non-newline characters ('.' does not match a newline; the multiline '$' then
necessarily matches). -/
def dotPlusAt : List Char → Option (List Char)
  | [] => none
  | c :: cs => if c = '\n' then none else some (takeLine (c :: cs))

/-- Scanner for \s*(.+)$ at the current position, with the greedy preference
of Go's regexp: extend the whitespace run as far as a match remains possible,
otherwise start (.+) here. -/
def wsStarCap : List Char → Option (List Char)
  | [] => none
  | c :: cs =>
    if isRegexSpace c then
      match wsStarCap cs with
      | some t => some t
      | none => dotPlusAt (c :: cs)
    else dotPlusAt (c :: cs)

/-- Scanner for \s+(.+)$ at the current position (at least one whitespace
character, which may be a newline, then the capture). -/
def wsCap : List Char → Option (List Char)
  | [] => none
  | c :: cs => if isRegexSpace c then wsStarCap cs else none

/-- Match of #\s+(.+)$ at the current position (which the caller guarantees
is a line start); returns the capture group. -/
def tryTitleAt : List Char → Option (List Char)
  | c :: cs => if c = '#' then wsCap cs else none
  | [] => none

/-- Scan for the leftmost match of (?m)^#\s+(.+)$: the pattern is anchored
at line starts, tracked by the flag. -/
def scanTitle : Bool → List Char → Option (List Char)
  | _, [] => none
  | atStart, c :: cs =>
    match (if atStart then tryTitleAt (c :: cs) else none) with
    | some t => some t
    | none => scanTitle (c = '\n') cs

/-- extractTitle (generator/postprocess.go): the trimmed capture of the first
match of (?m)^#\s+(.+)$, or the empty string when there is no match. -/
def extractTitle (md : List Char) : List Char :=
  trimSpace ((scanTitle true md).getD [])

/-- extractDigest (generator/postprocess.go): the first line that, trimmed,
is nonempty and does not start with '#'. -/
def extractDigestLines : List (List Char) → List Char
  | [] => []
  | l :: ls =>
    let t := trimSpace l
    if t.head? = some '#' then extractDigestLines ls
    else if t.isEmpty then extractDigestLines ls
    else t

/-- extractDigest (generator/postprocess.go). -/
def extractDigest (md : List Char) : List Char := extractDigestLines (splitNl md)

/-- defaultDigest (generator/postprocess.go): whitespace-separated tokens
joined by single spaces, truncated to `limit` bytes (Go's len() and slicing
operate on bytes). -/
def genDefaultDigest (md : List Char) (limit : Nat) : List Nat :=
  let joined := utf8Bytes (joinSpace (fields md))
  if joined.length ≤ limit then joined else joined.take limit

/-- The error message for empty model output. -/
def emptyOutputMsg : List Char := "model returned empty markdown".toList

/-- PostProcess (generator/postprocess.go). -/
def PostProcess (raw : List Char) (_spec : Spec) : Except (List Char) Draft :=
  let md := trimSpace raw
  if md.isEmpty then .error emptyOutputMsg
  else
    let digest0 := extractDigest md
    let digest := if digest0.isEmpty then genDefaultDigest md 120 else utf8Bytes digest0
    .ok { title := extractTitle md, digest := digest, markdown := md,
          coverHint := [], inlineImageHints := [] }

/-! ## Session (generator/session.go)

The generation agent (generator/agent.go Agent.Generate: prompt build, LLM
call, PostProcess) is an external effect from the session's point of view and
is passed as an oracle with Generate's signature; time.Now is passed as a
Nat.  Session operations return the result together with the session state
after the call. -/

/-- The signature of Agent.Generate(ctx, spec, prevDraft, history, comment). -/
def GenFn : Type := Spec → Option Draft → List Turn → List Char → Except (List Char) Draft

/-- Session (generator/session.go): id, spec, current draft, append-only
history.  A fresh session carries the zero Draft. -/
structure Session where
  id : List Char
  spec : Spec
  draft : Draft
  history : List Turn
deriving Repr, DecidableEq

/-- The zero value of Draft (a session before its first successful
generation). -/
def emptyDraft : Draft := { title := [], digest := [], markdown := [], coverHint := [], inlineImageHints := [] }

/-- NewSession (generator/session.go). -/
def NewSession (id : List Char) (spec : Spec) : Session :=
  { id := id, spec := spec, draft := emptyDraft, history := [] }

/-- Session.appendTurn (generator/session.go). -/
def Session.appendTurn (s : Session) (comment : List Char) (d : Draft)
    (summary : List Char) (now : Nat) : Session :=
  { s with history := s.history ++ [{ comment := comment, draft := d, summary := summary, createdAt := now }] }

/-- The sentinel label recorded for the initial generation. -/
def firstDraftLabel : List Char := "首稿".toList

/-- The summary label recorded for revisions. -/
def revisionLabel : List Char := "修订".toList

/-- Session.Propose (generator/session.go): first generation. -/
def Session.propose (gen : GenFn) (now : Nat) (s : Session) :
    Except (List Char) Draft × Session :=
  match gen s.spec none s.history [] with
  | .error e => (.error e, s)
  | .ok d => (.ok d, Session.appendTurn { s with draft := d } firstDraftLabel d firstDraftLabel now)

/-- Session.Revise (generator/session.go): comment-driven revision using the
current draft as context. -/
def Session.revise (gen : GenFn) (now : Nat) (comment : List Char) (s : Session) :
    Except (List Char) Draft × Session :=
  match gen s.spec (some s.draft) s.history comment with
  | .error e => (.error e, s)
  | .ok d => (.ok d, Session.appendTurn { s with draft := d } comment d revisionLabel now)

/-! ## Publisher: digest resolution (publisher/publisher.go)

PublishDraft resolves the digest before any upload:
    finalDigest := params.Digest
    if finalDigest == "" { finalDigest = defaultDigest(string(mdBytes), 120) }
-/

/-- defaultDigest (publisher/publisher.go): identical to the generator's
fallback; tokens joined with single spaces, truncated to `limit` bytes. -/
def pubDefaultDigest (md : List Char) (limit : Nat) : List Nat :=
  let joined := utf8Bytes (joinSpace (fields md))
  if joined.length ≤ limit then joined else joined.take limit

/-- The digest-resolution step of PublishDraft (publisher/publisher.go,
lines 161-164), in the byte view of Go strings. -/
def resolveDigest (paramsDigest : List Char) (md : List Char) : List Nat :=
  if paramsDigest.isEmpty then pubDefaultDigest md 120 else utf8Bytes paramsDigest

/-! ## Publisher: inline image resolution (publisher/publisher.go)

replaceMarkdownImages scans for the pattern `!\[[^\]]*\]\(([^)]+)\)`:
literal "![", a possibly empty run of non-']' characters, "](", a nonempty
run of non-')' characters (the group), ")".  Both classes exclude exactly
their closing delimiter, so the greedy runs end at the first occurrence of
that delimiter and the match at a given position is unique. -/

/-- Match of the image pattern at the current position: returns
(alt text, ref group, rest after the closing parenthesis). -/
def tryImg : List Char → Option (List Char × List Char × List Char)
  | c0 :: c1 :: cs =>
    if c0 = '!' ∧ c1 = '[' then
      match splitAtChar ']' cs with
      | none => none
      | some (alt, cs1) =>
        match cs1 with
        | c2 :: cs2 =>
          if c2 = '(' then
            match splitAtChar ')' cs2 with
            | none => none
            | some (ref, cs3) => if ref.isEmpty then none else some (alt, ref, cs3)
          else none
        | [] => none
    else none
  | _ => none

/-- FindAllStringSubmatchIndex for the image pattern, as a decomposition:
the input is the concatenation of, for each match in order, the text before
it and the "![alt](ref)" parts, followed by the trailing text.  Fuel is
instantiated with the input length. -/
def scanImgs : Nat → List Char → List (List Char × List Char × List Char) × List Char
  | 0, cs => ([], cs)
  | _ + 1, [] => ([], [])
  | fuel + 1, c :: cs =>
    match tryImg (c :: cs) with
    | some (alt, ref, rest) =>
      let (ms, tail) := scanImgs fuel rest
      (([], alt, ref) :: ms, tail)
    | none =>
      match scanImgs fuel cs with
      | ([], tail) => ([], c :: tail)
      | ((pre, a, r) :: ms, tail) => ((c :: pre, a, r) :: ms, tail)

/-- The absolute-reference test of replaceMarkdownImages: the trimmed ref
starts with "http://", "https://" or "data:". -/
def isAbsRef (r : List Char) : Bool :=
  startsWithPat "http://".toList r || startsWithPat "https://".toList r ||
  startsWithPat "data:".toList r

/-- The local-path resolution of replaceMarkdownImages:
    localPath := imgRef
    if !filepath.IsAbs(localPath) {
      if _, statErr := os.Stat(localPath); statErr != nil {
        localPath = filepath.Join(baseDir, imgRef) } }
filepath.IsAbs on Unix tests for a leading '/'; os.Stat and the join against
filepath.Dir(mdPath) are filesystem oracles. -/
def resolveLocalPath (statOk : List Char → Bool) (joinBaseDir : List Char → List Char)
    (imgRef : List Char) : List Char :=
  if imgRef.head? = some '/' then imgRef
  else if statOk imgRef then imgRef
  else joinBaseDir imgRef

/-- The per-match replacement loop of replaceMarkdownImages over the
decomposition: text outside the group spans is copied, an absolute ref is
written back trimmed, a local ref is uploaded (uploadContentImage is the
oracle `upload`) and the hosted URL written in its place; the list of upload
calls made, in order, is returned alongside. -/
def replaceSegs (upload : List Char → Except (List Char) (List Char))
    (statOk : List Char → Bool) (joinBaseDir : List Char → List Char) :
    List (List Char × List Char × List Char) → List Char →
    Except (List Char) (List Char × List (List Char))
  | [], tail => .ok (tail, [])
  | (pre, alt, ref) :: ms, tail =>
    let r := trimSpace ref
    if isAbsRef r then
      match replaceSegs upload statOk joinBaseDir ms tail with
      | .error e => .error e
      | .ok (out, calls) =>
        .ok (pre ++ '!' :: '[' :: alt ++ ']' :: '(' :: r ++ ')' :: out, calls)
    else
      let localPath := resolveLocalPath statOk joinBaseDir (trimSpace ref)
      match upload localPath with
      | .error e => .error e
      | .ok url =>
        match replaceSegs upload statOk joinBaseDir ms tail with
        | .error e => .error e
        | .ok (out, calls) =>
          .ok (pre ++ '!' :: '[' :: alt ++ ']' :: '(' :: url ++ ')' :: out,
               localPath :: calls)

/-- replaceMarkdownImages (publisher/publisher.go): returns the rewritten
markdown together with the list of content-image upload calls made. -/
def replaceMarkdownImages (upload : List Char → Except (List Char) (List Char))
    (statOk : List Char → Bool) (joinBaseDir : List Char → List Char)
    (md : List Char) : Except (List Char) (List Char × List (List Char)) :=
  let (ms, tail) := scanImgs md.length md
  if ms.isEmpty then .ok (md, [])
  else replaceSegs upload statOk joinBaseDir ms tail

/-! ## Publisher: WeChat HTML normalization (publisher/publisher.go) -/

/-- Heading digits accepted by the pattern <h([1-6]). -/
def isHDigit (c : Char) : Bool :=
  c = '1' || c = '2' || c = '3' || c = '4' || c = '5' || c = '6'

/-- Does the input start with a closing heading tag </h[1-6]> ? -/
def startsCloseH : List Char → Bool
  | '<' :: '/' :: 'h' :: d :: '>' :: _ => isHDigit d
  | _ => false

/-- The lazy (.*?) up to the first closing heading tag: text before it and
rest after its five characters. -/
def splitAtCloseH : List Char → Option (List Char × List Char)
  | [] => none
  | c :: cs =>
    if startsCloseH (c :: cs) then some ([], (c :: cs).drop 5)
    else (splitAtCloseH cs).map (fun pr => (c :: pr.1, pr.2))

/-- Match of (?s)<h([1-6])[^>]*>(.*?)</h[1-6]> at the current position:
returns (level digit, inner text, rest). -/
def tryHead : List Char → Option (Char × List Char × List Char)
  | c0 :: c1 :: d :: cs =>
    if c0 = '<' ∧ c1 = 'h' ∧ isHDigit d then
      let attrs := cs.takeWhile (fun c => !(c = '>'))
      match cs.drop attrs.length with
      | '>' :: cs1 =>
        match splitAtCloseH cs1 with
        | some (inner, rest) => some (d, inner, rest)
        | none => none
      | _ => none
    else none
  | _ => none

/-- The font size assigned per heading level (with the map's default). -/
def headSize (d : Char) : List Char :=
  if d = '1' then "24px".toList
  else if d = '2' then "22px".toList
  else if d = '3' then "20px".toList
  else if d = '4' then "18px".toList
  else if d = '5' then "16px".toList
  else if d = '6' then "15px".toList
  else "18px".toList

/-- The replacement paragraph for one heading match. -/
def headRepl (d : Char) (inner : List Char) : List Char :=
  "<p style=\"font-size:".toList ++ headSize d ++
  ";font-weight:700;margin:1em 0 0.6em;\">".toList ++ trimSpace inner ++
  "</p>".toList

/-- hRe.ReplaceAllStringFunc: scan left to right, replacing each heading
match and continuing after it (replacements are not rescanned). -/
def convertHeads : Nat → List Char → List Char
  | 0, cs => cs
  | _ + 1, [] => []
  | fuel + 1, c :: cs =>
    match tryHead (c :: cs) with
    | some (d, inner, rest) => headRepl d inner ++ convertHeads fuel rest
    | none => c :: convertHeads fuel cs

/-- convertHeadingsForWeChat (publisher/publisher.go). -/
def convertHeadingsForWeChat (cs : List Char) : List Char :=
  convertHeads cs.length cs

/-- The literal closing tags searched for by the lazy list/heading patterns. -/
def closeOl : List Char := ['<', '/', 'o', 'l', '>']

/-- The literal closing tag of a list item. -/
def closeLi : List Char := ['<', '/', 'l', 'i', '>']

/-- The literal closing tag of an unordered list. -/
def closeUl : List Char := ['<', '/', 'u', 'l', '>']

/-- Match of (?s)<li[^>]*>(.*?)</li> at the current position: returns
(item text, rest). -/
def tryLi : List Char → Option (List Char × List Char)
  | c0 :: c1 :: c2 :: cs =>
    if c0 = '<' ∧ c1 = 'l' ∧ c2 = 'i' then
      let attrs := cs.takeWhile (fun c => !(c = '>'))
      match cs.drop attrs.length with
      | '>' :: cs1 => splitAtPat closeLi cs1
      | _ => none
    else none
  | _ => none

/-- liRe.FindAllStringSubmatch over a block: all item texts in order. -/
def liItems : Nat → List Char → List (List Char)
  | 0, _ => []
  | _ + 1, [] => []
  | fuel + 1, c :: cs =>
    match tryLi (c :: cs) with
    | some (item, rest) => item :: liItems fuel rest
    | none => liItems fuel cs

/-- Match of (?s)<ol[^>]*>(.*?)</ol> at the current position: returns the
whole matched block (as handed to the replacement function) and the rest. -/
def tryOl : List Char → Option (List Char × List Char)
  | c0 :: c1 :: c2 :: cs =>
    if c0 = '<' ∧ c1 = 'o' ∧ c2 = 'l' then
      let attrs := cs.takeWhile (fun c => !(c = '>'))
      match cs.drop attrs.length with
      | '>' :: cs1 =>
        match splitAtPat closeOl cs1 with
        | some (inner, rest) =>
          some ('<' :: 'o' :: 'l' :: attrs ++ '>' :: inner ++ closeOl, rest)
        | none => none
      | _ => none
    else none
  | _ => none

/-- Match of (?s)<ul[^>]*>(.*?)</ul> at the current position. -/
def tryUl : List Char → Option (List Char × List Char)
  | c0 :: c1 :: c2 :: cs =>
    if c0 = '<' ∧ c1 = 'u' ∧ c2 = 'l' then
      let attrs := cs.takeWhile (fun c => !(c = '>'))
      match cs.drop attrs.length with
      | '>' :: cs1 =>
        match splitAtPat closeUl cs1 with
        | some (inner, rest) =>
          some ('<' :: 'u' :: 'l' :: attrs ++ '>' :: inner ++ closeUl, rest)
        | none => none
      | _ => none
    else none
  | _ => none

/-- One decimal digit. -/
def digitChar (d : Nat) : Char := Char.ofNat (48 + d % 10)

/-- Decimal rendering of a Nat (fmt.Sprintf %d), fuel-structural. -/
def natDecAux : Nat → Nat → List Char
  | 0, _ => []
  | f + 1, n => if n < 10 then [digitChar n] else natDecAux f (n / 10) ++ [digitChar n]

/-- Decimal rendering of a Nat. -/
def natDec (n : Nat) : List Char := natDecAux (n + 1) n

/-- The ordered-list replacement: one paragraph per item, numbered from the
counter plus one ("{n}. {item}" with trimmed item text). -/
def olReplAux : Nat → List (List Char) → List Char
  | _, [] => []
  | i, t :: ts =>
    "<p>".toList ++ natDec (i + 1) ++ '.' :: ' ' :: trimSpace t ++ "</p>".toList ++
    olReplAux (i + 1) ts

/-- The ordered-list replacement, numbering from 1. -/
def olRepl (items : List (List Char)) : List Char := olReplAux 0 items

/-- The unordered-list replacement: one bullet paragraph per item. -/
def ulRepl (items : List (List Char)) : List Char :=
  (items.map (fun it => "<p>• ".toList ++ trimSpace it ++ "</p>".toList)).flatten

/-- olRe.ReplaceAllStringFunc: a block with no items is returned unchanged. -/
def flattenOl : Nat → List Char → List Char
  | 0, cs => cs
  | _ + 1, [] => []
  | fuel + 1, c :: cs =>
    match tryOl (c :: cs) with
    | some (block, rest) =>
      let items := liItems block.length block
      (if items.isEmpty then block else olRepl items) ++ flattenOl fuel rest
    | none => c :: flattenOl fuel cs

/-- ulRe.ReplaceAllStringFunc. -/
def flattenUl : Nat → List Char → List Char
  | 0, cs => cs
  | _ + 1, [] => []
  | fuel + 1, c :: cs =>
    match tryUl (c :: cs) with
    | some (block, rest) =>
      let items := liItems block.length block
      (if items.isEmpty then block else ulRepl items) ++ flattenUl fuel rest
    | none => c :: flattenUl fuel cs

/-- flattenListsForWeChat (publisher/publisher.go): ordered lists first, then
unordered lists over the result. -/
def flattenListsForWeChat (cs : List Char) : List Char :=
  let afterOl := flattenOl cs.length cs
  flattenUl afterOl.length afterOl

/-- normalizeForWeChat (publisher/publisher.go). -/
def normalizeForWeChat (cs : List Char) : List Char :=
  flattenListsForWeChat (convertHeadingsForWeChat cs)

/-! ## Session store (server/server.go)

The store maps session ids to entries carrying an expiry instant and the
upload file paths recorded for the session.  time.Now is a Nat parameter;
the filesystem is the list of existing paths, and os.Remove deletes a path
from it (best-effort removal has no failure in the model).  Go's map is
embedded as an association list (keys unique in any state Go produces). -/

/-- A session-store entry (server/server.go sessionEntry). -/
structure SessionEntry where
  sess : Session
  expiresAt : Nat
  uploads : List (List Char)
deriving Repr, DecidableEq

/-- The store's shared state: entries plus the files on disk. -/
structure StoreState where
  sessions : List (List Char × SessionEntry)
  ttl : Nat
  files : List (List Char)
deriving Repr, DecidableEq

/-- sessionStore.cleanupUploads: os.Remove each recorded path. -/
def cleanupUploads (paths : List (List Char)) (files : List (List Char)) : List (List Char) :=
  files.filter (fun f => !(paths.contains f))

/-- sessionStore.purgeLocked: drop every entry whose expiry lies strictly
before now (expiresAt.Before(now)), removing its uploads from disk. -/
def purgeLocked (now : Nat) (st : StoreState) : StoreState :=
  let expired := st.sessions.filter (fun pr => pr.2.expiresAt < now)
  { st with
    sessions := st.sessions.filter (fun pr => !(pr.2.expiresAt < now)),
    files := cleanupUploads ((expired.map (fun pr => pr.2.uploads)).flatten) st.files }

/-- sessionStore.set: insert or overwrite with a fresh entry (uploads nil),
expiry now+ttl. -/
def storeSet (now : Nat) (id : List Char) (sess : Session) (st : StoreState) : StoreState :=
  { st with sessions :=
      (id, { sess := sess, expiresAt := now + st.ttl, uploads := [] }) ::
      st.sessions.filter (fun pr => !(pr.1 = id)) }

/-- sessionStore.get: purge, look up, and extend the hit entry's expiry. -/
def storeGet (now : Nat) (id : List Char) (st : StoreState) :
    Option Session × StoreState :=
  let st1 := purgeLocked now st
  match st1.sessions.find? (fun pr => pr.1 = id) with
  | none => (none, st1)
  | some pr =>
    (some pr.2.sess,
     { st1 with sessions := st1.sessions.map (fun q =>
         if q.1 = id then (q.1, { q.2 with expiresAt := now + st1.ttl }) else q) })

/-- sessionStore.heartbeat: purge, then refresh the expiry of a live entry. -/
def storeHeartbeat (now : Nat) (id : List Char) (st : StoreState) :
    Bool × StoreState :=
  let st1 := purgeLocked now st
  match st1.sessions.find? (fun pr => pr.1 = id) with
  | none => (false, st1)
  | some _ =>
    (true,
     { st1 with sessions := st1.sessions.map (fun q =>
         if q.1 = id then (q.1, { q.2 with expiresAt := now + st1.ttl }) else q) })

/-- sessionStore.delete: remove the entry and unlink its uploads. -/
def storeDelete (id : List Char) (st : StoreState) : StoreState :=
  match st.sessions.find? (fun pr => pr.1 = id) with
  | none => st
  | some pr =>
    { st with
      sessions := st.sessions.filter (fun q => !(q.1 = id)),
      files := cleanupUploads pr.2.uploads st.files }

/-! ## Theorems -/

/-- Claim C1: for every session and context, if the agent's generation call
fails, Propose returns the error and leaves the session without a draft
(state exactly as before, in particular the zero draft of a fresh session),
and Revise returns the error and leaves the session's current draft and
history exactly as they were before the call. -/
theorem C1_generation_failure_leaves_session_unchanged
    (gen : GenFn) (now : Nat) (s : Session) (comment e : List Char) :
    (gen s.spec none s.history [] = .error e →
      Session.propose gen now s = (.error e, s)) ∧
    (gen s.spec (some s.draft) s.history comment = .error e →
      Session.revise gen now comment s = (.error e, s)) := by
  constructor
  · intro h
    simp [Session.propose, h]
  · intro h
    simp [Session.revise, h]

/-- A generation oracle that always fails (witness scaffolding). -/
def genFail : GenFn := fun _ _ _ _ => .error "boom".toList

/-- A sample spec (witness scaffolding). -/
def sampleSpec : Spec := { topic := "自动化".toList, outline := [], words := 200, constraints := [] }

theorem C1_witness :
    Session.propose genFail 7 (NewSession "s1".toList sampleSpec) =
      (.error "boom".toList, NewSession "s1".toList sampleSpec) :=
  (C1_generation_failure_leaves_session_unchanged genFail 7
    (NewSession "s1".toList sampleSpec) [] "boom".toList).1 rfl

/-- Claim C2: history is append-only (Propose and Revise only ever append one
Turn on success and leave history untouched on failure), after every
successful Propose or Revise the current draft equals the draft stored in the
most recently appended Turn, and a session that runs Propose and then one
successful Revise has history of length 2 with history[1].draft equal to the
session's draft. -/
theorem C2_history_append_only_draft_matches_last_turn
    (gen : GenFn) (now now2 : Nat) (s : Session) (comment : List Char) :
    (∀ d s1, Session.propose gen now s = (.ok d, s1) →
        s1.history = s.history ++
          [{ comment := firstDraftLabel, draft := d, summary := firstDraftLabel, createdAt := now }] ∧
        s1.draft = d ∧ s1.history.getLast?.map Turn.draft = some s1.draft) ∧
    (∀ d s1, Session.revise gen now comment s = (.ok d, s1) →
        s1.history = s.history ++
          [{ comment := comment, draft := d, summary := revisionLabel, createdAt := now }] ∧
        s1.draft = d ∧ s1.history.getLast?.map Turn.draft = some s1.draft) ∧
    (∀ e s1, Session.propose gen now s = (.error e, s1) → s1 = s) ∧
    (∀ e s1, Session.revise gen now comment s = (.error e, s1) → s1 = s) ∧
    (s.history = [] →
      ∀ d1 s1 d2 s2, Session.propose gen now s = (.ok d1, s1) →
        Session.revise gen now2 comment s1 = (.ok d2, s2) →
        s2.history.length = 2 ∧ (s2.history.get? 1).map Turn.draft = some s2.draft) := by
  refine ⟨?_, ?_, ?_, ?_, ?_⟩
  · intro d s1 h
    revert h
    unfold Session.propose
    cases hg : gen s.spec none s.history [] with
    | error e => intro h; cases h
    | ok d0 =>
      intro h
      obtain ⟨hd, hs⟩ := Prod.mk.injEq .. ▸ h
      cases hd
      subst hs
      simp [Session.appendTurn]
  · intro d s1 h
    revert h
    unfold Session.revise
    cases hg : gen s.spec (some s.draft) s.history comment with
    | error e => intro h; cases h
    | ok d0 =>
      intro h
      obtain ⟨hd, hs⟩ := Prod.mk.injEq .. ▸ h
      cases hd
      subst hs
      simp [Session.appendTurn]
  · intro e s1 h
    revert h
    unfold Session.propose
    cases hg : gen s.spec none s.history [] with
    | error e0 => intro h; exact (Prod.mk.injEq .. ▸ h).2.symm ▸ rfl
    | ok d0 => intro h; cases (Prod.mk.injEq .. ▸ h).1
  · intro e s1 h
    revert h
    unfold Session.revise
    cases hg : gen s.spec (some s.draft) s.history comment with
    | error e0 => intro h; exact (Prod.mk.injEq .. ▸ h).2.symm ▸ rfl
    | ok d0 => intro h; cases (Prod.mk.injEq .. ▸ h).1
  · intro hnil d1 s1 d2 s2 h1 h2
    revert h1
    unfold Session.propose
    cases hg : gen s.spec none s.history [] with
    | error e => intro h1; cases (Prod.mk.injEq .. ▸ h1).1
    | ok d0 =>
      intro h1
      obtain ⟨hd, hs⟩ := Prod.mk.injEq .. ▸ h1
      cases hd
      revert h2
      subst hs
      unfold Session.revise
      cases hg2 : gen _ _ _ comment with
      | error e => intro h2; cases (Prod.mk.injEq .. ▸ h2).1
      | ok d3 =>
        intro h2
        obtain ⟨hd2, hs2⟩ := Prod.mk.injEq .. ▸ h2
        cases hd2
        subst hs2
        simp [Session.appendTurn, hnil]

/-- A generation oracle that always succeeds with a fixed draft (witness
scaffolding). -/
def genOk : GenFn :=
  fun _ _ _ _ => .ok { title := "T".toList, digest := [], markdown := "# T".toList,
                       coverHint := [], inlineImageHints := [] }

theorem C2_witness :
    ∀ d1 s1 d2 s2, Session.propose genOk 1 (NewSession "s2".toList sampleSpec) = (.ok d1, s1) →
      Session.revise genOk 2 "tweak".toList s1 = (.ok d2, s2) →
      s2.history.length = 2 ∧ (s2.history.get? 1).map Turn.draft = some s2.draft :=
  (C2_history_append_only_draft_matches_last_turn genOk 1 2
    (NewSession "s2".toList sampleSpec) "tweak".toList).2.2.2.2 rfl

/-- Claim C7: PostProcess fails with the empty-output error exactly on raw
model output that is empty or all whitespace, and succeeds on every other
raw output (the emptiness check is the only validation); on success the
draft's markdown is the trimmed raw text. -/
theorem C7_postprocess_empty_validation (raw : List Char) (spec : Spec) :
    ((trimSpace raw).isEmpty = true → PostProcess raw spec = .error emptyOutputMsg) ∧
    ((trimSpace raw).isEmpty = false →
      ∃ d : Draft, PostProcess raw spec = .ok d ∧ d.markdown = trimSpace raw) := by
  constructor
  · intro h
    simp [PostProcess, h]
  · intro h
    refine ⟨{ title := extractTitle (trimSpace raw),
              digest := if (extractDigest (trimSpace raw)).isEmpty then
                          genDefaultDigest (trimSpace raw) 120
                        else utf8Bytes (extractDigest (trimSpace raw)),
              markdown := trimSpace raw, coverHint := [], inlineImageHints := [] },
           ?_, rfl⟩
    simp [PostProcess, h]

theorem C7_witness :
    PostProcess "  \n\t ".toList sampleSpec = .error emptyOutputMsg ∧
    ∃ d : Draft, PostProcess "# T\n\nbody".toList sampleSpec = .ok d ∧
      d.markdown = trimSpace "# T\n\nbody".toList :=
  ⟨(C7_postprocess_empty_validation "  \n\t ".toList sampleSpec).1 (by decide),
   (C7_postprocess_empty_validation "# T\n\nbody".toList sampleSpec).2 (by decide)⟩

set_option maxRecDepth 4000 in
/-- Claim C5, counterexample: the fallback digest is truncated at 120 UTF-8
BYTES, not 120 characters.  41 CJK characters are 41 characters (well under a
120-character ceiling) but 123 bytes, and the code cuts them to 120 bytes,
so the claimed character-ceiling reading predicts the full joined text while
the code returns a strict prefix. -/
theorem C5_counterexample :
    (List.replicate 41 '好').length = 41 ∧
    joinSpace (fields (List.replicate 41 '好')) = List.replicate 41 '好' ∧
    (utf8Bytes (List.replicate 41 '好')).length = 123 ∧
    (resolveDigest [] (List.replicate 41 '好')).length = 120 ∧
    resolveDigest [] (List.replicate 41 '好') ≠
      utf8Bytes (joinSpace (fields (List.replicate 41 '好'))) := by
  refine ⟨by decide, by decide, by decide, by decide, by decide⟩

/-- Claim C5 (amended): the caller-provided digest is used whenever it is
non-empty; otherwise the digest is derived from the full Markdown by joining
its whitespace-separated tokens with single spaces and truncating the result
to a ceiling of 120 UTF-8 bytes (not characters). -/
theorem C5_digest_resolution (pd md : List Char) :
    (pd.isEmpty = false → resolveDigest pd md = utf8Bytes pd) ∧
    (pd.isEmpty = true →
      resolveDigest pd md = (utf8Bytes (joinSpace (fields md))).take 120) := by
  constructor
  · intro h
    simp [resolveDigest, h]
  · intro h
    simp only [resolveDigest, h, if_pos, pubDefaultDigest]
    split
    · next hle => exact (List.take_of_length_le hle).symm
    · rfl

theorem C5_witness :
    resolveDigest "given".toList "ignored body".toList = utf8Bytes "given".toList ∧
    resolveDigest [] " a  b\tc ".toList = (utf8Bytes (joinSpace (fields " a  b\tc ".toList))).take 120 :=
  ⟨(C5_digest_resolution "given".toList "ignored body".toList).1 (by decide),
   (C5_digest_resolution [] " a  b\tc ".toList).2 (by decide)⟩

/-- Helper: refreshing the expiry of all entries with a given key commutes
with looking that key up. -/
theorem find?_map_refresh (l : List (List Char × SessionEntry)) (t : Nat) (id : List Char) :
    ((l.map (fun q => if q.1 = id then (q.1, { q.2 with expiresAt := t }) else q)).find?
        (fun pr => pr.1 = id)) =
      (l.find? (fun pr => pr.1 = id)).map (fun pr => (pr.1, { pr.2 with expiresAt := t })) := by
  induction l with
  | nil => rfl
  | cons q l ih =>
    by_cases hq : q.1 = id
    · simp [hq, List.find?]
    · simp [hq, List.find?, ih]

/-- Claim C8: an entry whose TTL window has lapsed (every access — set, get
or heartbeat — stamps expiresAt to the access time plus the TTL, so a lapsed
window is exactly expiresAt < now) is absent from a subsequent get, and every
upload file path recorded for it has been removed from disk. -/
theorem C8_ttl_expiry (st : StoreState) (now : Nat) (id : List Char) :
    ((∀ pr ∈ st.sessions, pr.1 = id → pr.2.expiresAt < now) →
      (storeGet now id st).1 = none ∧
      ∀ pr ∈ st.sessions, pr.1 = id → ∀ p ∈ pr.2.uploads,
        p ∉ (storeGet now id st).2.files) ∧
    (∀ sess, ((storeSet now id sess st).sessions.find? (fun pr => pr.1 = id)).map
        (fun pr => pr.2.expiresAt) = some (now + st.ttl)) ∧
    (∀ sess, (storeGet now id st).1 = some sess →
      ((storeGet now id st).2.sessions.find? (fun pr => pr.1 = id)).map
        (fun pr => pr.2.expiresAt) = some (now + st.ttl)) ∧
    ((storeHeartbeat now id st).1 = true →
      ((storeHeartbeat now id st).2.sessions.find? (fun pr => pr.1 = id)).map
        (fun pr => pr.2.expiresAt) = some (now + st.ttl)) := by
  have hpurge_find :
      (∀ pr ∈ st.sessions, pr.1 = id → pr.2.expiresAt < now) →
        (purgeLocked now st).sessions.find? (fun pr => pr.1 = id) = none := by
    intro hall
    cases hf : (purgeLocked now st).sessions.find? (fun pr => pr.1 = id) with
    | none => rfl
    | some pr =>
      exfalso
      have hmem := List.mem_of_find?_eq_some hf
      have hid := List.find?_some hf
      simp only [decide_eq_true_eq] at hid
      simp only [purgeLocked, List.mem_filter, Bool.not_eq_true'] at hmem
      exact absurd (hall pr hmem.1 hid) (by simpa using hmem.2)
  have hget_none : (purgeLocked now st).sessions.find? (fun pr => pr.1 = id) = none →
      storeGet now id st = (none, purgeLocked now st) := by
    intro hf
    simp [storeGet, hf]
  have hget_some : ∀ pr, (purgeLocked now st).sessions.find? (fun pr => pr.1 = id) = some pr →
      storeGet now id st =
        (some pr.2.sess,
         { sessions := (purgeLocked now st).sessions.map (fun q =>
             if q.1 = id then (q.1, { q.2 with expiresAt := now + st.ttl }) else q),
           ttl := st.ttl, files := (purgeLocked now st).files }) := by
    intro pr hf
    simp only [storeGet]
    rw [hf]
    rfl
  refine ⟨?_, ?_, ?_, ?_⟩
  · intro hall
    have hf := hpurge_find hall
    rw [hget_none hf]
    constructor
    · rfl
    · intro pr hmem hid p hp
      have hexp := hall pr hmem hid
      simp only [purgeLocked, cleanupUploads, List.mem_filter, Bool.not_eq_true']
      rintro ⟨-, hcon⟩
      have hin : p ∈ ((st.sessions.filter (fun pr => pr.2.expiresAt < now)).map
          (fun pr => pr.2.uploads)).flatten := by
        refine List.mem_flatten.mpr ⟨pr.2.uploads, ?_, hp⟩
        exact List.mem_map.mpr ⟨pr, List.mem_filter.mpr ⟨hmem, by simpa using hexp⟩, rfl⟩
      simp only [List.contains, List.elem_eq_mem, decide_eq_false_iff_not] at hcon
      exact hcon hin
  · intro sess
    simp [storeSet, List.find?]
  · intro sess hget
    cases hf : (purgeLocked now st).sessions.find? (fun pr => pr.1 = id) with
    | none =>
      rw [hget_none hf] at hget
      cases hget
    | some pr =>
      rw [hget_some pr hf]
      simp only
      rw [find?_map_refresh, hf]
      rfl
  · intro hhb
    have hhb_some : ∀ pr, (purgeLocked now st).sessions.find? (fun pr => pr.1 = id) = some pr →
        storeHeartbeat now id st =
          (true,
           { sessions := (purgeLocked now st).sessions.map (fun q =>
               if q.1 = id then (q.1, { q.2 with expiresAt := now + st.ttl }) else q),
             ttl := st.ttl, files := (purgeLocked now st).files }) := by
      intro pr hf
      simp only [storeHeartbeat]
      rw [hf]
      rfl
    cases hf : (purgeLocked now st).sessions.find? (fun pr => pr.1 = id) with
    | none =>
      have : storeHeartbeat now id st = (false, purgeLocked now st) := by
        simp [storeHeartbeat, hf]
      rw [this] at hhb
      cases hhb
    | some pr =>
      rw [hhb_some pr hf]
      simp only
      rw [find?_map_refresh, hf]
      rfl

/-- A concrete expired session entry with one recorded upload (witness
scaffolding). -/
def expiredEntry : SessionEntry :=
  { sess := NewSession "sid".toList sampleSpec, expiresAt := 100,
    uploads := ["uploads/a.png".toList] }

/-- A concrete store holding one expired session (witness scaffolding). -/
def expiredStore : StoreState :=
  { sessions := [("sid".toList, expiredEntry)],
    ttl := 300, files := ["uploads/a.png".toList, "uploads/keep.png".toList] }

theorem C8_witness :
    (storeGet 101 "sid".toList expiredStore).1 = none ∧
    "uploads/a.png".toList ∉ (storeGet 101 "sid".toList expiredStore).2.files := by
  have h := (C8_ttl_expiry expiredStore 101 "sid".toList).1 (by decide)
  exact ⟨h.1, h.2 ("sid".toList, expiredEntry) (by decide) rfl
    "uploads/a.png".toList (by decide)⟩

/-! ## Image-resolution specification and soundness -/

/-- What one image reference becomes in the output: an absolute ref is
written back trimmed; a local ref is replaced by the hosted URL returned by
the (always-succeeding) upload oracle u for the resolved path. -/
def renderRef (u : List Char → List Char) (statOk : List Char → Bool)
    (joinBaseDir : List Char → List Char) (ref : List Char) : List Char :=
  if isAbsRef (trimSpace ref) then trimSpace ref
  else u (resolveLocalPath statOk joinBaseDir (trimSpace ref))

/-- Rebuild one decomposition segment around a replacement ref text. -/
def frameSeg (seg : List Char × List Char × List Char) (out : List Char) : List Char :=
  seg.1 ++ '!' :: '[' :: seg.2.1 ++ ']' :: '(' :: out ++ [')']

/-- Rebuild a whole document from its decomposition, substituting the given
ref texts; everything outside the ref spans is kept verbatim and in order. -/
def frameRender (ms : List (List Char × List Char × List Char))
    (outs : List (List Char)) (tail : List Char) : List Char :=
  (List.zipWith frameSeg ms outs).flatten ++ tail

/-- The expected rewritten document. -/
def imgOutputSpec (u : List Char → List Char) (statOk : List Char → Bool)
    (joinBaseDir : List Char → List Char)
    (ms : List (List Char × List Char × List Char)) (tail : List Char) : List Char :=
  frameRender ms (ms.map (fun seg => renderRef u statOk joinBaseDir seg.2.2)) tail

/-- The expected upload trace: one call per non-absolute reference, in
left-to-right order, with no dedup. -/
def imgCallsSpec (statOk : List Char → Bool) (joinBaseDir : List Char → List Char)
    (ms : List (List Char × List Char × List Char)) : List (List Char) :=
  (ms.filter (fun seg => !(isAbsRef (trimSpace seg.2.2)))).map
    (fun seg => resolveLocalPath statOk joinBaseDir (trimSpace seg.2.2))

/-- splitAtChar returns an exact decomposition of its input. -/
theorem splitAtChar_sound (ch : Char) :
    ∀ cs a b, splitAtChar ch cs = some (a, b) → cs = a ++ ch :: b := by
  intro cs
  induction cs with
  | nil => intro a b h; cases h
  | cons c cs ih =>
    intro a b h
    by_cases hc : c = ch
    · simp [splitAtChar, hc] at h
      obtain ⟨h1, h2⟩ := h
      subst h1
      subst h2
      rw [hc]
      rfl
    · simp only [splitAtChar, if_neg hc, Option.map_eq_some'] at h
      obtain ⟨⟨a', b'⟩, h1, h2⟩ := h
      obtain ⟨ha, hb⟩ := Prod.mk.injEq .. ▸ h2
      rw [← ha, ← hb]
      simpa using congrArg (c :: ·) (ih a' b' h1)

/-- A successful image match is an exact decomposition of its input. -/
theorem tryImg_sound :
    ∀ cs alt ref rest, tryImg cs = some (alt, ref, rest) →
      cs = '!' :: '[' :: alt ++ ']' :: '(' :: ref ++ ')' :: rest := by
  intro cs alt ref rest h
  match cs, h with
  | [], h => cases h
  | [c0], h => cases h
  | c0 :: c1 :: cs', h => ?_
  revert h
  simp only [tryImg]
  by_cases hc0 : c0 = '!' ∧ c1 = '['
  · rw [if_pos hc0]
    obtain ⟨h0, h1⟩ := hc0
    subst h0
    subst h1
    cases h1 : splitAtChar ']' cs' with
    | none => intro h; cases h
    | some pr1 =>
      obtain ⟨alt', cs1⟩ := pr1
      have hcs' := splitAtChar_sound ']' cs' alt' cs1 h1
      simp only
      cases cs1 with
      | nil => intro h; cases h
      | cons c2 cs2 =>
        dsimp only
        by_cases hc2 : c2 = '('
        · rw [if_pos hc2]
          subst hc2
          cases h2 : splitAtChar ')' cs2 with
          | none => intro h; cases h
          | some pr2 =>
            obtain ⟨ref', cs3⟩ := pr2
            have hcs2 := splitAtChar_sound ')' cs2 ref' cs3 h2
            simp only
            by_cases hre : ref'.isEmpty
            · rw [if_pos hre]
              intro h; cases h
            · rw [if_neg hre]
              intro h
              simp only [Option.some.injEq, Prod.mk.injEq] at h
              obtain ⟨ha, hr, hrest⟩ := h
              subst ha; subst hr; subst hrest
              rw [hcs', hcs2]
              simp
        · rw [if_neg hc2]
          intro h; cases h
  · rw [if_neg hc0]
    intro h; cases h

/-- The image scan is an exact decomposition of its input. -/
theorem scanImgs_sound :
    ∀ fuel cs, cs = frameRender (scanImgs fuel cs).1
        ((scanImgs fuel cs).1.map (fun seg => seg.2.2)) (scanImgs fuel cs).2 := by
  intro fuel
  induction fuel with
  | zero => intro cs; simp [scanImgs, frameRender]
  | succ fuel ih =>
    intro cs
    cases cs with
    | nil => simp [scanImgs, frameRender]
    | cons c cs =>
      cases htry : tryImg (c :: cs) with
      | some m =>
        obtain ⟨alt, ref, rest⟩ := m
        have hdec := tryImg_sound (c :: cs) alt ref rest htry
        simp only [scanImgs, htry]
        cases hscan : scanImgs fuel rest with
        | mk ms tail =>
          have := ih rest
          rw [hscan] at this
          simp only [frameRender, List.map_cons, List.zipWith_cons_cons,
            List.flatten_cons, frameSeg] at *
          rw [hdec]
          simp only [List.nil_append, List.append_assoc]
          rw [← this]
          simp
      | none =>
        simp only [scanImgs, htry]
        cases hscan : scanImgs fuel cs with
        | mk ms tail =>
          have hcs := ih cs
          rw [hscan] at hcs
          cases ms with
          | nil =>
            simp only [frameRender, List.zipWith_nil_left, List.flatten_nil,
              List.nil_append, List.map_nil] at hcs ⊢
            simp only [hcs]
          | cons seg ms' =>
            obtain ⟨pre, a, r⟩ := seg
            simp only [frameRender, List.map_cons, List.zipWith_cons_cons,
              List.flatten_cons, frameSeg, List.append_assoc] at hcs ⊢
            rw [hcs]
            simp

/-- When the scan finds no match the trailing text is the whole input. -/
theorem scanImgs_no_match :
    ∀ fuel cs, (scanImgs fuel cs).1 = [] → (scanImgs fuel cs).2 = cs := by
  intro fuel cs h
  have hs := scanImgs_sound fuel cs
  rw [h] at hs
  simp only [frameRender, List.map_nil, List.zipWith_nil_left, List.flatten_nil,
    List.nil_append] at hs
  exact hs.symm

/-- replaceSegs with an always-succeeding upload oracle produces exactly the
specified rewrite and upload trace. -/
theorem replaceSegs_spec (u : List Char → List Char) (statOk : List Char → Bool)
    (joinBaseDir : List Char → List Char) :
    ∀ ms tail, replaceSegs (fun p => .ok (u p)) statOk joinBaseDir ms tail =
      .ok (imgOutputSpec u statOk joinBaseDir ms tail,
           imgCallsSpec statOk joinBaseDir ms) := by
  intro ms
  induction ms with
  | nil =>
    intro tail
    simp [replaceSegs, imgOutputSpec, imgCallsSpec, frameRender]
  | cons seg ms ih =>
    intro tail
    obtain ⟨pre, alt, ref⟩ := seg
    by_cases habs : isAbsRef (trimSpace ref) = true
    · simp [replaceSegs, habs, ih, imgOutputSpec, imgCallsSpec, frameRender,
        frameSeg, renderRef]
    · simp only [Bool.not_eq_true] at habs
      simp [replaceSegs, habs, ih, imgOutputSpec, imgCallsSpec, frameRender,
        frameSeg, renderRef]

/-- Claim C3, counterexample: an already-absolute reference padded with
whitespace is NOT left unchanged — the code writes back the trimmed ref, so
the reference text " https://h/p.png " becomes "https://h/p.png" even though
no upload happens. -/
theorem C3_counterexample :
    replaceMarkdownImages (fun p => .ok ('U' :: p)) (fun _ => true) (fun p => p)
      "![a]( https://h/p.png )".toList =
      .ok ("![a](https://h/p.png)".toList, []) ∧
    "![a](https://h/p.png)".toList ≠ "![a]( https://h/p.png )".toList := by
  exact ⟨by rfl, by decide⟩

/-- The full behavior of replaceMarkdownImages under an always-succeeding
upload oracle (shared between the image-resolution claims). -/
theorem replaceImages_spec (u : List Char → List Char)
    (statOk : List Char → Bool) (joinBaseDir : List Char → List Char)
    (md : List Char) :
    replaceMarkdownImages (fun p => .ok (u p)) statOk joinBaseDir md =
      .ok (imgOutputSpec u statOk joinBaseDir
             (scanImgs md.length md).1 (scanImgs md.length md).2,
           imgCallsSpec statOk joinBaseDir (scanImgs md.length md).1) := by
  unfold replaceMarkdownImages
  cases hscan : scanImgs md.length md with
  | mk ms tail =>
    cases hms : ms with
    | nil =>
      have htail : tail = md := by
        have := scanImgs_no_match md.length md
        rw [hscan] at this
        exact this (by rw [hms])
      subst hms
      simp [htail, imgOutputSpec, imgCallsSpec, frameRender]
    | cons seg ms' =>
      subst hms
      simp only [List.isEmpty_cons, Bool.false_eq_true, if_false, if_neg]
      exact replaceSegs_spec u statOk joinBaseDir (seg :: ms') tail

/-- Claim C3 (amended): for Markdown with n references whose trimmed ref does
not start with http://, https:// or data: and m references whose trimmed ref
does, image resolution performs exactly the n content-image uploads — one per
occurrence, repeats re-uploaded with no dedup, in left-to-right first-match
order — substitutes each returned hosted URL in place of the local ref, and
writes the m absolute references back trimmed (unchanged exactly when they
carry no surrounding whitespace). -/
theorem C3_image_upload_per_local_ref (u : List Char → List Char)
    (statOk : List Char → Bool) (joinBaseDir : List Char → List Char)
    (md : List Char) :
    replaceMarkdownImages (fun p => .ok (u p)) statOk joinBaseDir md =
      .ok (imgOutputSpec u statOk joinBaseDir
             (scanImgs md.length md).1 (scanImgs md.length md).2,
           imgCallsSpec statOk joinBaseDir (scanImgs md.length md).1) ∧
    (imgCallsSpec statOk joinBaseDir (scanImgs md.length md).1).length =
      ((scanImgs md.length md).1.filter
        (fun seg => !(isAbsRef (trimSpace seg.2.2)))).length := by
  constructor
  · exact replaceImages_spec u statOk joinBaseDir md
  · simp [imgCallsSpec]

/-- Claim C10, counterexample: the input contains an image reference but no
local (uploadable) one, so the claim asserts the output equals the input;
the code trims the whitespace inside the parentheses. -/
theorem C10_counterexample :
    replaceMarkdownImages (fun p => .ok ('U' :: p)) (fun _ => true) (fun p => p)
      "![b]( http://x )".toList = .ok ("![b](http://x)".toList, []) ∧
    "![b](http://x)".toList ≠ "![b]( http://x )".toList := by
  exact ⟨by rfl, by decide⟩

/-- Claim C10 (amended): image resolution changes only the ref spans inside
the parentheses of image references — uploaded refs are replaced by hosted
URLs and absolute refs by their trimmed text; every byte outside those ref
spans (the alt texts and all surrounding text) appears in the output
unchanged and in the original order, and input containing no image reference
is returned verbatim. -/
theorem C10_frame_outside_ref_spans (u : List Char → List Char)
    (statOk : List Char → Bool) (joinBaseDir : List Char → List Char)
    (md : List Char) :
    md = frameRender (scanImgs md.length md).1
           ((scanImgs md.length md).1.map (fun seg => seg.2.2))
           (scanImgs md.length md).2 ∧
    (∃ outs, outs.length = (scanImgs md.length md).1.length ∧
      replaceMarkdownImages (fun p => .ok (u p)) statOk joinBaseDir md =
        .ok (frameRender (scanImgs md.length md).1 outs (scanImgs md.length md).2,
             imgCallsSpec statOk joinBaseDir (scanImgs md.length md).1)) ∧
    ((scanImgs md.length md).1 = [] →
      replaceMarkdownImages (fun p => .ok (u p)) statOk joinBaseDir md = .ok (md, [])) := by
  refine ⟨scanImgs_sound md.length md, ?_, ?_⟩
  · refine ⟨(scanImgs md.length md).1.map
        (fun seg => renderRef u statOk joinBaseDir seg.2.2), by simp, ?_⟩
    exact replaceImages_spec u statOk joinBaseDir md
  · intro hnil
    unfold replaceMarkdownImages
    cases hscan : scanImgs md.length md with
    | mk ms tail =>
      rw [hscan] at hnil
      simp only at hnil
      subst hnil
      have htail : tail = md := by
        have := scanImgs_no_match md.length md
        rw [hscan] at this
        exact this rfl
      simp [htail]

theorem C10_witness :
    replaceMarkdownImages (fun p => .ok ('U' :: p)) (fun _ => true) (fun p => p)
      "plain text, no images".toList = .ok ("plain text, no images".toList, []) :=
  (C10_frame_outside_ref_spans (fun p => 'U' :: p) (fun _ => true) (fun p => p)
    "plain text, no images".toList).2.2 (by decide)

/-! ## Normalization idempotence (claim C4) -/

/-- Is there a heading match anywhere in the text? -/
def hasHeadMatch : List Char → Bool
  | [] => false
  | c :: cs => (tryHead (c :: cs)).isSome || hasHeadMatch cs

/-- Is there an ordered-list match anywhere in the text? -/
def hasOlMatch : List Char → Bool
  | [] => false
  | c :: cs => (tryOl (c :: cs)).isSome || hasOlMatch cs

/-- Is there an unordered-list match anywhere in the text? -/
def hasUlMatch : List Char → Bool
  | [] => false
  | c :: cs => (tryUl (c :: cs)).isSome || hasUlMatch cs

/-- A pass that never matches copies its input verbatim. -/
theorem convertHeads_of_no_match :
    ∀ fuel cs, hasHeadMatch cs = false → convertHeads fuel cs = cs := by
  intro fuel
  induction fuel with
  | zero => intro cs _; rfl
  | succ fuel ih =>
    intro cs h
    cases cs with
    | nil => rfl
    | cons c cs =>
      simp only [hasHeadMatch, Bool.or_eq_false_iff] at h
      have htry : tryHead (c :: cs) = none := by
        cases he : tryHead (c :: cs) with
        | none => rfl
        | some m => rw [he] at h; cases h.1
      simp [convertHeads, htry, ih cs h.2]

/-- A pass that never matches copies its input verbatim. -/
theorem flattenOl_of_no_match :
    ∀ fuel cs, hasOlMatch cs = false → flattenOl fuel cs = cs := by
  intro fuel
  induction fuel with
  | zero => intro cs _; rfl
  | succ fuel ih =>
    intro cs h
    cases cs with
    | nil => rfl
    | cons c cs =>
      simp only [hasOlMatch, Bool.or_eq_false_iff] at h
      have htry : tryOl (c :: cs) = none := by
        cases he : tryOl (c :: cs) with
        | none => rfl
        | some m => rw [he] at h; cases h.1
      simp [flattenOl, htry, ih cs h.2]

/-- A pass that never matches copies its input verbatim. -/
theorem flattenUl_of_no_match :
    ∀ fuel cs, hasUlMatch cs = false → flattenUl fuel cs = cs := by
  intro fuel
  induction fuel with
  | zero => intro cs _; rfl
  | succ fuel ih =>
    intro cs h
    cases cs with
    | nil => rfl
    | cons c cs =>
      simp only [hasUlMatch, Bool.or_eq_false_iff] at h
      have htry : tryUl (c :: cs) = none := by
        cases he : tryUl (c :: cs) with
        | none => rfl
        | some m => rw [he] at h; cases h.1
      simp [flattenUl, htry, ih cs h.2]

set_option maxRecDepth 8000 in
/-- Claim C4, counterexample: normalizeForWeChat is NOT idempotent on every
HTML string.  On the nested headings <h1><h2>a</h2></h1> the first pass's
lazy match stops at the inner closing tag and leaves <h2 and </h1 fragments
that the second pass rewrites again. -/
theorem C4_counterexample :
    normalizeForWeChat (normalizeForWeChat "<h1><h2>a</h2></h1>".toList) ≠
      normalizeForWeChat "<h1><h2>a</h2></h1>".toList := by decide

/-- Claim C4 (amended): normalizeForWeChat is idempotent on every HTML string
whose normalized form contains no remaining heading, ordered-list or
unordered-list match — which holds whenever heading and list elements are
not nested inside one another; for nested inputs such as
<h1><h2>a</h2></h1> a second pass makes further changes. -/
theorem C4_normalize_idempotent_without_nesting (h : List Char)
    (hh : hasHeadMatch (normalizeForWeChat h) = false)
    (ho : hasOlMatch (normalizeForWeChat h) = false)
    (hu : hasUlMatch (normalizeForWeChat h) = false) :
    normalizeForWeChat (normalizeForWeChat h) = normalizeForWeChat h := by
  conv_lhs => rw [normalizeForWeChat]
  rw [show convertHeadingsForWeChat (normalizeForWeChat h) = normalizeForWeChat h from
    convertHeads_of_no_match _ _ hh]
  rw [flattenListsForWeChat]
  rw [show flattenOl (normalizeForWeChat h).length (normalizeForWeChat h) =
        normalizeForWeChat h from flattenOl_of_no_match _ _ ho]
  exact flattenUl_of_no_match _ _ hu

set_option maxRecDepth 8000 in
theorem C4_witness :
    normalizeForWeChat (normalizeForWeChat "<h1>T</h1><ol><li>A</li></ol>".toList) =
      normalizeForWeChat "<h1>T</h1><ol><li>A</li></ol>".toList :=
  C4_normalize_idempotent_without_nesting "<h1>T</h1><ol><li>A</li></ol>".toList
    (by decide) (by decide) (by decide)

/-! ## Ordered-list flattening (claim C9) -/

/-- The concatenated item elements of a constructed ordered list. -/
def mkItems : List (List Char) → List Char
  | [] => []
  | t :: ts => '<' :: 'l' :: 'i' :: '>' :: (t ++ closeLi ++ mkItems ts)

/-- A plain ordered list element around the given item texts. -/
def mkOl (ts : List (List Char)) : List Char :=
  '<' :: 'o' :: 'l' :: '>' :: (mkItems ts ++ closeOl)

/-- A pattern is a prefix of itself followed by anything. -/
theorem startsWithPat_append_self : ∀ pat v : List Char, startsWithPat pat (pat ++ v) = true := by
  intro pat
  induction pat with
  | nil => intro v; rfl
  | cons p ps ih => intro v; simp [startsWithPat, ih]

/-- Splitting at a pattern that sits at the front. -/
theorem splitAtPat_self (pat v : List Char) (hne : pat ≠ []) :
    splitAtPat pat (pat ++ v) = some ([], v) := by
  cases pat with
  | nil => cases hne rfl
  | cons p ps =>
    simp only [List.cons_append, splitAtPat]
    rw [if_pos (by simpa [List.cons_append] using startsWithPat_append_self (p :: ps) v)]
    simp [List.drop_left']

/-- Characters other than the pattern head shift through splitAtPat. -/
theorem splitAtPat_shift_lt (ps : List Char) :
    ∀ (u v : List Char), (∀ c ∈ u, ¬ c = '<') →
      splitAtPat ('<' :: ps) (u ++ v) =
        (splitAtPat ('<' :: ps) v).map (fun pr => (u ++ pr.1, pr.2)) := by
  intro u
  induction u with
  | nil =>
    intro v _
    cases h : splitAtPat ('<' :: ps) v <;> simp [h]
  | cons c u ih =>
    intro v hu
    have hc : ¬ ('<' = c) := fun h => hu c (List.mem_cons_self c u) h.symm
    simp only [List.cons_append, splitAtPat, startsWithPat]
    rw [if_neg (by simp [hc])]
    simp only [List.append_eq]
    rw [ih v (fun d hd => hu d (List.mem_cons_of_mem c hd))]
    cases h : splitAtPat ('<' :: ps) v <;> simp [h]

/-- Stepping over one non-matching position. -/
theorem splitAtPat_cons_no (pat : List Char) (c : Char) (cs : List Char)
    (h : startsWithPat pat (c :: cs) = false) :
    splitAtPat pat (c :: cs) = (splitAtPat pat cs).map (fun pr => (c :: pr.1, pr.2)) := by
  simp [splitAtPat, h]

/-- The lazy content split of a constructed ordered list stops exactly at the
closing tag: the items contain no '<', so no earlier position matches. -/
theorem splitAtPat_mkItems (ts : List (List Char))
    (hA : ∀ t ∈ ts, ∀ c ∈ t, ¬ c = '<') :
    ∀ v, splitAtPat closeOl (mkItems ts ++ (closeOl ++ v)) = some (mkItems ts, v) := by
  induction ts with
  | nil =>
    intro v
    simpa [mkItems] using splitAtPat_self closeOl v (by decide)
  | cons t ts ih =>
    intro v
    have hts : ∀ t' ∈ ts, ∀ c ∈ t', ¬ c = '<' :=
      fun t' ht' => hA t' (List.mem_cons_of_mem t ht')
    have hti : ∀ c ∈ t, ¬ c = '<' := hA t (List.mem_cons_self t ts)
    simp only [mkItems, List.cons_append, List.append_assoc]
    rw [splitAtPat_cons_no _ _ _ (by simp [closeOl, startsWithPat])]
    rw [splitAtPat_cons_no _ _ _ (by simp [closeOl, startsWithPat])]
    rw [splitAtPat_cons_no _ _ _ (by simp [closeOl, startsWithPat])]
    rw [splitAtPat_cons_no _ _ _ (by simp [closeOl, startsWithPat])]
    rw [show (closeOl : List Char) = '<' :: ['/', 'o', 'l', '>'] from rfl]
    rw [splitAtPat_shift_lt ['/', 'o', 'l', '>'] t _ hti]
    rw [show (closeLi : List Char) = '<' :: '/' :: 'l' :: 'i' :: '>' :: [] from rfl]
    simp only [List.cons_append]
    rw [splitAtPat_cons_no _ _ _ (by simp [startsWithPat])]
    rw [splitAtPat_cons_no _ _ _ (by simp [startsWithPat])]
    rw [splitAtPat_cons_no _ _ _ (by simp [startsWithPat])]
    rw [splitAtPat_cons_no _ _ _ (by simp [startsWithPat])]
    rw [splitAtPat_cons_no _ _ _ (by simp [startsWithPat])]
    rw [show ([] ++ (mkItems ts ++ '<' :: '/' :: 'o' :: 'l' :: '>' :: ([] ++ v)) : List Char)
          = mkItems ts ++ (closeOl ++ v) from by simp [closeOl]]
    rw [show ('<' :: ['/', 'o', 'l', '>'] : List Char) = closeOl from rfl]
    rw [ih hts v]
    simp [mkItems, closeLi]

/-- Is there a list-item match anywhere in the text? -/
def hasLiMatch : List Char → Bool
  | [] => false
  | c :: cs => (tryLi (c :: cs)).isSome || hasLiMatch cs

/-- An item scan with no match anywhere yields no items. -/
theorem liItems_no_match : ∀ fuel cs, hasLiMatch cs = false → liItems fuel cs = [] := by
  intro fuel
  induction fuel with
  | zero => intro cs _; rfl
  | succ fuel ih =>
    intro cs h
    cases cs with
    | nil => rfl
    | cons c cs =>
      simp only [hasLiMatch, Bool.or_eq_false_iff] at h
      have htry : tryLi (c :: cs) = none := by
        cases he : tryLi (c :: cs) with
        | none => rfl
        | some m => rw [he] at h; cases h.1
      simp [liItems, htry, ih cs h.2]

/-- Stepping the item scan over a non-matching position. -/
theorem liItems_skip (fuel : Nat) (c : Char) (cs : List Char)
    (h : tryLi (c :: cs) = none) :
    liItems fuel (c :: cs) = liItems (fuel - 1) cs := by
  cases fuel with
  | zero => rfl
  | succ f => simp [liItems, h]

/-- Stepping the item scan over a match. -/
theorem liItems_take (fuel : Nat) (c : Char) (cs item rest : List Char)
    (h : tryLi (c :: cs) = some (item, rest)) (hf : fuel ≠ 0) :
    liItems fuel (c :: cs) = item :: liItems (fuel - 1) rest := by
  cases fuel with
  | zero => cases hf rfl
  | succ f => simp [liItems, h]

/-- The item matcher on a constructed item element. -/
theorem tryLi_item (t rest : List Char) (ht : ∀ c ∈ t, ¬ c = '<') :
    tryLi ('<' :: 'l' :: 'i' :: '>' :: (t ++ (closeLi ++ rest))) = some (t, rest) := by
  have h1 : (('>' :: (t ++ (closeLi ++ rest))).takeWhile (fun c => !(c = '>'))) = [] := by
    simp [List.takeWhile]
  simp only [tryLi, h1, List.length_nil, List.drop_zero]
  show splitAtPat closeLi (t ++ (closeLi ++ rest)) = some (t, rest)
  rw [show (closeLi : List Char) = '<' :: ['/', 'l', 'i', '>'] from rfl]
  rw [splitAtPat_shift_lt ['/', 'l', 'i', '>'] t _ ht]
  rw [splitAtPat_self ('<' :: ['/', 'l', 'i', '>']) rest (by decide)]
  simp

/-- The item scan over the items of a constructed list block. -/
theorem liItems_items (ts : List (List Char)) (hA : ∀ t ∈ ts, ∀ c ∈ t, ¬ c = '<') :
    ∀ fuel, (mkItems ts ++ closeOl).length ≤ fuel →
      liItems fuel (mkItems ts ++ closeOl) = ts := by
  induction ts with
  | nil =>
    intro fuel _
    apply liItems_no_match
    decide
  | cons t ts ih =>
    intro fuel hf
    have hts : ∀ t' ∈ ts, ∀ c ∈ t', ¬ c = '<' :=
      fun t' ht' => hA t' (List.mem_cons_of_mem t ht')
    have hti : ∀ c ∈ t, ¬ c = '<' := hA t (List.mem_cons_self t ts)
    have hlen : (mkItems (t :: ts) ++ closeOl).length =
        t.length + (mkItems ts ++ closeOl).length + 9 := by
      simp only [mkItems, closeLi, closeOl, List.cons_append, List.length_cons,
        List.length_append, List.length_nil]
      omega
    have hshape : mkItems (t :: ts) ++ closeOl =
        '<' :: 'l' :: 'i' :: '>' :: (t ++ (closeLi ++ (mkItems ts ++ closeOl))) := by
      simp [mkItems]
    rw [hlen] at hf
    rw [hshape]
    rw [liItems_take fuel _ _ _ _ (tryLi_item t (mkItems ts ++ closeOl) hti) (by omega)]
    rw [ih hts (fuel - 1) (by omega)]

/-- The ordered-list matcher on a constructed list. -/
theorem tryOl_mkOl (ts : List (List Char)) (hA : ∀ t ∈ ts, ∀ c ∈ t, ¬ c = '<') :
    tryOl (mkOl ts) = some (mkOl ts, []) := by
  have h1 : ((('>' : Char) :: (mkItems ts ++ closeOl)).takeWhile (fun c => !(c = '>'))) = [] := by
    simp [List.takeWhile]
  show tryOl ('<' :: 'o' :: 'l' :: ('>' :: (mkItems ts ++ closeOl))) = some (mkOl ts, [])
  simp only [tryOl, h1, List.length_nil, List.drop_zero]
  show (match splitAtPat closeOl (mkItems ts ++ closeOl) with
        | some (inner, rest) => some ('<' :: 'o' :: 'l' :: [] ++ '>' :: inner ++ closeOl, rest)
        | none => none) = some (mkOl ts, [])
  rw [show (mkItems ts ++ closeOl : List Char) = mkItems ts ++ (closeOl ++ []) from by simp]
  rw [splitAtPat_mkItems ts hA []]
  simp [mkOl]

/-- Stepping the list pass over a non-matching position. -/
theorem flattenOl_skip (fuel : Nat) (c : Char) (cs : List Char)
    (h : tryOl (c :: cs) = none) :
    flattenOl fuel (c :: cs) = c :: flattenOl (fuel - 1) cs := by
  cases fuel with
  | zero => rfl
  | succ f => simp [flattenOl, h]

/-- Stepping the list pass over a match. -/
theorem flattenOl_replace (fuel : Nat) (c : Char) (cs block rest : List Char)
    (h : tryOl (c :: cs) = some (block, rest)) (hf : fuel ≠ 0) :
    flattenOl fuel (c :: cs) =
      (if (liItems block.length block).isEmpty then block
       else olRepl (liItems block.length block)) ++ flattenOl (fuel - 1) rest := by
  cases fuel with
  | zero => cases hf rfl
  | succ f => simp [flattenOl, h]

/-- The list pass on the empty string. -/
theorem flattenOl_nil : ∀ fuel, flattenOl fuel [] = [] := by
  intro fuel
  cases fuel <;> rfl

/-- The item scan over a whole constructed block (opening and closing tags
included, as the replacement function receives it). -/
theorem liItems_mkOl (ts : List (List Char)) (hA : ∀ t ∈ ts, ∀ c ∈ t, ¬ c = '<') :
    ∀ fuel, (mkOl ts).length ≤ fuel → liItems fuel (mkOl ts) = ts := by
  intro fuel hfuel
  have hlen : (mkOl ts).length = (mkItems ts ++ closeOl).length + 4 := by
    simp only [mkOl, List.length_cons]
  cases hts : ts with
  | nil =>
    apply liItems_no_match
    decide
  | cons t ts' =>
    rw [show mkOl (t :: ts') =
      '<' :: ('o' :: ('l' :: ('>' :: (mkItems (t :: ts') ++ closeOl)))) from rfl]
    rw [show (mkItems (t :: ts') ++ closeOl : List Char) =
      '<' :: 'l' :: 'i' :: '>' :: (t ++ (closeLi ++ (mkItems ts' ++ closeOl))) from by
        simp [mkItems]]
    rw [liItems_skip _ _ _ (by simp [tryLi])]
    rw [liItems_skip _ _ _ (by simp [tryLi])]
    rw [liItems_skip _ _ _ (by simp [tryLi])]
    rw [liItems_skip _ _ _ (by simp [tryLi])]
    rw [show '<' :: 'l' :: 'i' :: '>' :: (t ++ (closeLi ++ (mkItems ts' ++ closeOl)))
          = mkItems (t :: ts') ++ closeOl from by simp [mkItems]]
    apply liItems_items (t :: ts') (hts ▸ hA)
    rw [hts] at hlen hfuel
    omega

/-- The full ordered-list pass on a constructed nonempty list. -/
theorem flattenOl_mkOl (ts : List (List Char)) (hne : ts ≠ [])
    (hA : ∀ t ∈ ts, ∀ c ∈ t, ¬ c = '<') :
    ∀ fuel, fuel ≠ 0 → flattenOl fuel (mkOl ts) = olRepl ts := by
  intro fuel hf
  rw [show mkOl ts = '<' :: ('o' :: 'l' :: '>' :: (mkItems ts ++ closeOl)) from rfl]
  rw [flattenOl_replace fuel _ _ _ _
    (by rw [show ('<' :: ('o' :: 'l' :: '>' :: (mkItems ts ++ closeOl)) : List Char)
          = mkOl ts from rfl]; exact tryOl_mkOl ts hA) hf]
  rw [flattenOl_nil]
  rw [liItems_mkOl ts hA _ le_rfl]
  cases ts with
  | nil => cases hne rfl
  | cons t ts' => simp

/-- No '<' immediately followed by 'u' anywhere: such a text cannot contain
the start of an unordered-list tag. -/
def noLtU : List Char → Bool
  | [] => true
  | [_] => true
  | a :: b :: rest => !(a = '<' && b = 'u') && noLtU (b :: rest)

/-- A successful unordered-list match starts with the three tag characters. -/
theorem tryUl_shape : ∀ cs m, tryUl cs = some m → ∃ rest, cs = '<' :: 'u' :: 'l' :: rest := by
  intro cs m h
  match cs, h with
  | [], h => nomatch h
  | [c], h => nomatch h
  | [c, c2], h => nomatch h
  | c0 :: c1 :: c2 :: rest, h =>
    by_cases hc : c0 = '<' ∧ c1 = 'u' ∧ c2 = 'l'
    · exact ⟨rest, by rw [hc.1, hc.2.1, hc.2.2]⟩
    · exfalso
      simp only [tryUl] at h
      rw [if_neg hc] at h
      cases h

/-- The tail of a noLtU text is noLtU. -/
theorem noLtU_tail : ∀ (c : Char) (cs : List Char), noLtU (c :: cs) = true → noLtU cs = true := by
  intro c cs h
  cases cs with
  | nil => rfl
  | cons b bs =>
    simp only [noLtU, Bool.and_eq_true] at h
    exact h.2

/-- The unordered-list pass leaves a noLtU text unchanged. -/
theorem flattenUl_of_noLtU : ∀ fuel cs, noLtU cs = true → flattenUl fuel cs = cs := by
  intro fuel
  induction fuel with
  | zero => intro cs _; rfl
  | succ fuel ih =>
    intro cs h
    cases cs with
    | nil => rfl
    | cons c cs =>
      have htry : tryUl (c :: cs) = none := by
        cases he : tryUl (c :: cs) with
        | none => rfl
        | some m =>
          obtain ⟨rest, hshape⟩ := tryUl_shape _ _ he
          rw [hshape] at h
          simp [noLtU] at h
      simp [flattenUl, htry, ih cs (noLtU_tail c cs h)]

/-- Texts with no '<' at all are noLtU. -/
theorem noLtU_of_no_lt : ∀ l : List Char, (∀ c ∈ l, ¬ c = '<') → noLtU l = true := by
  intro l
  induction l with
  | nil => intro _; rfl
  | cons a l ih =>
    intro h
    cases l with
    | nil => rfl
    | cons b l' =>
      have ha : ¬ a = '<' := h a (List.mem_cons_self a _)
      simp only [noLtU, Bool.and_eq_true, Bool.not_eq_true']
      refine ⟨by simp [ha], ih (fun c hc => h c (List.mem_cons_of_mem a hc))⟩

/-- Gluing noLtU texts whose boundary is not a '<','u' pair. -/
theorem noLtU_append : ∀ (x y : List Char), noLtU x = true → noLtU y = true →
    ¬ (x.getLast? = some '<' ∧ y.head? = some 'u') → noLtU (x ++ y) = true := by
  intro x
  induction x with
  | nil => intro y _ hy _; exact hy
  | cons a x ih =>
    intro y hx hy hb
    cases x with
    | nil =>
      cases y with
      | nil => rfl
      | cons b ys =>
        simp only [List.cons_append, List.nil_append, noLtU, Bool.and_eq_true,
          Bool.not_eq_true']
        constructor
        · by_cases hab : a = '<' ∧ b = 'u'
          · exact absurd ⟨by simp [hab.1], by simp [hab.2]⟩ hb
          · simpa using fun h1 h2 => hab ⟨h1, h2⟩
        · exact hy
    | cons a2 x' =>
      simp only [List.cons_append, noLtU, Bool.and_eq_true] at hx ⊢
      refine ⟨hx.1, ?_⟩
      have := ih y hx.2 hy (by simpa using hb)
      simpa using this

/-- Every character of the decimal rendering is a digit, hence neither '<'
nor 'u'. -/
theorem digitChar_ne (d : Nat) : ¬ digitChar d = '<' ∧ ¬ digitChar d = 'u' := by
  unfold digitChar
  have h : d % 10 < 10 := Nat.mod_lt _ (by omega)
  interval_cases hk : d % 10 <;> exact (by decide)

/-- The characters of natDecAux are digits. -/
theorem natDecAux_chars : ∀ f n c, c ∈ natDecAux f n → ¬ c = '<' ∧ ¬ c = 'u' := by
  intro f
  induction f with
  | zero => intro n c h; cases h
  | succ f ih =>
    intro n c h
    simp only [natDecAux] at h
    split at h
    · rw [List.mem_singleton] at h
      subst h
      exact digitChar_ne n
    · rw [List.mem_append] at h
      cases h with
      | inl h => exact ih _ _ h
      | inr h =>
        rw [List.mem_singleton] at h
        subst h
        exact digitChar_ne n

/-- The characters of trimSpace come from the original text. -/
theorem mem_trimSpace {c : Char} : ∀ {l : List Char}, c ∈ trimSpace l → c ∈ l := by
  have hdw : ∀ (p : Char → Bool) (l : List Char), c ∈ l.dropWhile p → c ∈ l := by
    intro p l
    induction l with
    | nil => intro h; cases h
    | cons a l ih =>
      intro h
      rw [List.dropWhile] at h
      cases hp : p a with
      | true => rw [hp] at h; exact List.mem_cons_of_mem a (ih h)
      | false => rw [hp] at h; exact h
  intro l h
  unfold trimSpace at h
  rw [List.mem_reverse] at h
  have h1 := hdw isGoSpace _ h
  rw [List.mem_reverse] at h1
  exact hdw isGoSpace _ h1

/-- The ordered-list replacement text contains no unordered-list tag start. -/
theorem noLtU_olReplAux (ts : List (List Char)) (hA : ∀ t ∈ ts, ∀ c ∈ t, ¬ c = '<') :
    ∀ i, noLtU (olReplAux i ts) = true := by
  induction ts with
  | nil => intro i; rfl
  | cons t ts ih =>
    intro i
    have hti : ∀ c ∈ t, ¬ c = '<' := hA t (List.mem_cons_self t ts)
    have hts : ∀ t' ∈ ts, ∀ c ∈ t', ¬ c = '<' :=
      fun t' ht' => hA t' (List.mem_cons_of_mem t ht')
    have hA1 : noLtU ("<p>".toList ++ natDec (i + 1)) = true := by
      refine noLtU_append _ _ (by decide) ?_ ?_
      · exact noLtU_of_no_lt _ (fun c hc => (natDecAux_chars _ _ c hc).1)
      · simp
    have hB : noLtU (("<p>".toList ++ natDec (i + 1)) ++ '.' :: ' ' :: trimSpace t) = true := by
      refine noLtU_append _ _ hA1 ?_ ?_
      · refine noLtU_of_no_lt _ ?_
        intro c hc
        simp only [List.mem_cons] at hc
        rcases hc with rfl | rfl | hc
        · decide
        · decide
        · exact hti c (mem_trimSpace hc)
      · simp
    have hC : noLtU ((("<p>".toList ++ natDec (i + 1)) ++ '.' :: ' ' :: trimSpace t)
        ++ "</p>".toList) = true := by
      refine noLtU_append _ _ hB (by decide) ?_
      simp
    have hD : noLtU (((("<p>".toList ++ natDec (i + 1)) ++ '.' :: ' ' :: trimSpace t)
        ++ "</p>".toList) ++ olReplAux (i + 1) ts) = true := by
      refine noLtU_append _ _ hC (ih hts (i + 1)) ?_
      rintro ⟨hlast, -⟩
      rw [List.getLast?_append] at hlast
      simp at hlast
    have hshape : olReplAux i (t :: ts) =
        (((("<p>".toList ++ natDec (i + 1)) ++ '.' :: ' ' :: trimSpace t)
          ++ "</p>".toList) ++ olReplAux (i + 1) ts) := by
      simp [olReplAux]
    rw [hshape]
    exact hD

/-- The index-threading replacement equals the 1-based enumeration of the
items, in document order. -/
theorem olReplAux_spec : ∀ (ts : List (List Char)) (i : Nat),
    olReplAux i ts =
      ((((List.range ts.length).map (· + i)).zip ts).map (fun pr =>
        "<p>".toList ++ natDec (pr.1 + 1) ++ '.' :: ' ' :: trimSpace pr.2 ++
          "</p>".toList)).flatten := by
  intro ts
  induction ts with
  | nil => intro i; rfl
  | cons t ts ih =>
    intro i
    simp only [List.length_cons]
    rw [List.range_succ_eq_map]
    simp only [List.map_cons, List.map_map, List.zip_cons_cons, List.flatten_cons,
      olReplAux]
    rw [ih (i + 1)]
    have hmap : ((List.range ts.length).map (· + (i + 1))) =
        ((List.range ts.length).map (Nat.succ)).map (· + i) := by
      simp only [List.map_map]
      apply List.map_congr_left
      intro a _
      simp [Nat.succ_eq_add_one]
      omega
    rw [hmap]
    simp [Nat.zero_add, Function.comp]

/-- Claim C9, counterexample: an <ol> block with no <li> items is left
unchanged rather than being replaced by zero paragraphs. -/
theorem C9_counterexample :
    flattenListsForWeChat "<ol></ol>".toList = "<ol></ol>".toList ∧
    "<ol></ol>".toList ≠ ([] : List Char) := by
  exact ⟨by decide, by decide⟩

/-- Claim C9 (amended): list flattening replaces every <ol> block containing
at least one <li> item by one <p> paragraph per item, each prefixed with
"{n}. " where n is the 1-based position of the item within its list in
document order (item text trimmed); a block with no <li> items is left
unchanged.  Stated for a block whose item texts contain no '<'. -/
theorem C9_ol_items_become_numbered_paragraphs (ts : List (List Char))
    (hne : ts ≠ []) (hA : ∀ t ∈ ts, ∀ c ∈ t, ¬ c = '<') :
    flattenListsForWeChat (mkOl ts) =
      (((List.range ts.length).zip ts).map (fun pr =>
        "<p>".toList ++ natDec (pr.1 + 1) ++ '.' :: ' ' :: trimSpace pr.2 ++
          "</p>".toList)).flatten := by
  rw [show flattenListsForWeChat (mkOl ts)
        = flattenUl (flattenOl (mkOl ts).length (mkOl ts)).length
            (flattenOl (mkOl ts).length (mkOl ts)) from rfl]
  rw [flattenOl_mkOl ts hne hA (mkOl ts).length (by simp [mkOl])]
  rw [flattenUl_of_noLtU _ _ (show noLtU (olRepl ts) = true from noLtU_olReplAux ts hA 0)]
  rw [show (olRepl ts : List Char) = olReplAux 0 ts from rfl]
  rw [olReplAux_spec ts 0]
  simp

theorem C9_witness :
    flattenListsForWeChat "<ol><li>A</li><li>B</li></ol>".toList =
      "<p>1. A</p><p>2. B</p>".toList := by
  have h := C9_ol_items_become_numbered_paragraphs ["A".toList, "B".toList]
    (by decide) (by decide)
  rw [show ("<ol><li>A</li><li>B</li></ol>".toList : List Char)
        = mkOl ["A".toList, "B".toList] from by decide]
  rw [h]
  decide

/-! ## Title extraction versus the line-oriented reading (claim C6) -/

/-- The claim's line-oriented specification: the capture of the first LINE
matching ^#\s+(.+)$ (each line matched standalone). -/
def lineTitleCap : List (List Char) → Option (List Char)
  | [] => none
  | l :: ls =>
    match tryTitleAt l with
    | some t => some t
    | none => lineTitleCap ls

/-- The claim's line-oriented title: the trimmed capture of the first line
matching the pattern, or empty when no line matches. -/
def firstLineTitle (md : List Char) : List Char :=
  trimSpace ((lineTitleCap (splitNl md)).getD [])

/-- A scan that is never at a line start finds nothing in newline-free text. -/
theorem scanTitle_false_no_nl : ∀ cs : List Char, (∀ c ∈ cs, ¬ c = '\n') →
    scanTitle false cs = none := by
  intro cs
  induction cs with
  | nil => intro _; rfl
  | cons c cs ih =>
    intro h
    have hc : ¬ c = '\n' := h c (List.mem_cons_self c cs)
    simp [scanTitle, hc, ih (fun d hd => h d (List.mem_cons_of_mem c hd))]

/-- Scanning through the rest of a line reaches the next line start. -/
theorem scanTitle_through_line : ∀ (l rest : List Char), (∀ c ∈ l, ¬ c = '\n') →
    scanTitle false (l ++ '\n' :: rest) = scanTitle true rest := by
  intro l
  induction l with
  | nil => intro rest _; simp [scanTitle]
  | cons c l ih =>
    intro rest h
    have hc : ¬ c = '\n' := h c (List.mem_cons_self c l)
    simp only [List.cons_append, scanTitle, if_false, Bool.false_eq_true]
    rw [show (decide (c = '\n') : Bool) = false from by simp [hc]]
    exact ih rest (fun d hd => h d (List.mem_cons_of_mem c hd))

/-- takeWhile up to the newline of a line-plus-rest decomposition. -/
theorem takeLine_append_nl (u rest : List Char) (h : ∀ c ∈ u, ¬ c = '\n') :
    takeLine (u ++ '\n' :: rest) = u := by
  induction u with
  | nil => simp [takeLine, List.takeWhile]
  | cons c u ih =>
    have hc : ¬ c = '\n' := h c (List.mem_cons_self c u)
    have ih' := ih (fun d hd => h d (List.mem_cons_of_mem c hd))
    simp only [takeLine, List.cons_append, List.takeWhile_cons] at ih' ⊢
    rw [show (!decide (c = '\n')) = true from by simp [hc]]
    simp only [if_true]
    exact congrArg (c :: ·) ih'

/-- The within-line capture of \s*(.+)$ ignores what follows the line's
newline, provided the line still holds a non-whitespace character. -/
theorem wsStarCap_line : ∀ (u : List Char), (∀ c ∈ u, ¬ c = '\n') →
    u.any (fun c => !(isRegexSpace c)) = true →
    (∀ rest, wsStarCap (u ++ '\n' :: rest) = wsStarCap u) ∧
      ∃ t, wsStarCap u = some t := by
  intro u
  induction u with
  | nil => intro _ hany; cases hany
  | cons c u ih =>
    intro hnl hany
    have hcnl : ¬ c = '\n' := hnl c (List.mem_cons_self c u)
    by_cases hws : isRegexSpace c = true
    · have hany' : u.any (fun c => !(isRegexSpace c)) = true := by
        simp only [List.any_cons, Bool.or_eq_true] at hany
        rcases hany with h | h
        · rw [hws] at h; cases h
        · exact h
      obtain ⟨heq, t, ht⟩ := ih (fun d hd => hnl d (List.mem_cons_of_mem c hd)) hany'
      constructor
      · intro rest
        simp only [List.cons_append, wsStarCap, hws, if_true, List.append_eq]
        rw [heq rest, ht]
      · refine ⟨t, ?_⟩
        simp only [wsStarCap, hws, if_true]
        rw [ht]
    · have hnlu : ∀ d ∈ u, ¬ d = '\n' := fun d hd => hnl d (List.mem_cons_of_mem c hd)
      have h1 : ∀ rest, takeLine (c :: (u ++ '\n' :: rest)) = c :: u := by
        intro rest
        have := takeLine_append_nl (c :: u) rest (by
          intro d hd
          rcases List.mem_cons.mp hd with rfl | hd
          · exact hcnl
          · exact hnlu d hd)
        simpa using this
      have h2 : takeLine (c :: u) = c :: u := by
        simp only [takeLine]
        rw [List.takeWhile_eq_self_iff.mpr]
        intro d hd
        rcases List.mem_cons.mp hd with rfl | hd
        · simp [hcnl]
        · simp [hnlu d hd]
      constructor
      · intro rest
        simp [wsStarCap, hws, dotPlusAt, hcnl, h1 rest, h2]
      · refine ⟨takeLine (c :: u), ?_⟩
        simp [wsStarCap, hws, dotPlusAt, hcnl]

/-- The within-line capture of \s+(.+)$ ignores what follows the newline. -/
theorem wsCap_line (u : List Char) (hnl : ∀ c ∈ u, ¬ c = '\n')
    (hany : u.any (fun c => !(isRegexSpace c)) = true) :
    ∀ rest, wsCap (u ++ '\n' :: rest) = wsCap u := by
  intro rest
  cases u with
  | nil => cases hany
  | cons c u' =>
    by_cases hws : isRegexSpace c = true
    · have hany' : u'.any (fun c => !(isRegexSpace c)) = true := by
        simp only [List.any_cons, Bool.or_eq_true] at hany
        rcases hany with h | h
        · rw [hws] at h; cases h
        · exact h
      obtain ⟨heq, t, ht⟩ := wsStarCap_line u'
        (fun d hd => hnl d (List.mem_cons_of_mem c hd)) hany'
      simp only [List.cons_append, wsCap, hws, if_true]
      exact heq rest
    · simp [wsCap, hws]

/-- The title matcher at a line start ignores what follows the newline,
provided a line starting with '#' carries a non-whitespace character after
the '#'. -/
theorem tryTitleAt_line (l rest : List Char) (hnl : ∀ c ∈ l, ¬ c = '\n')
    (hH : l.head? = some '#' → (l.drop 1).any (fun c => !(isRegexSpace c)) = true) :
    tryTitleAt (l ++ '\n' :: rest) = tryTitleAt l := by
  cases l with
  | nil => simp [tryTitleAt]
  | cons c l' =>
    by_cases hc : c = '#'
    · subst hc
      have hany : l'.any (fun c => !(isRegexSpace c)) = true := hH rfl
      simp only [List.cons_append, tryTitleAt, if_pos]
      exact wsCap_line l' (fun d hd => hnl d (List.mem_cons_of_mem _ hd)) hany rest
    · simp [tryTitleAt, hc]

/-- splitNl never returns an empty list of lines. -/
theorem splitNl_ne_nil : ∀ md : List Char, splitNl md ≠ [] := by
  intro md
  cases md with
  | nil => simp [splitNl]
  | cons c cs =>
    simp only [splitNl]
    by_cases hc : c = '\n'
    · simp [hc]
    · simp only [hc, if_false, Bool.false_eq_true]
      cases splitNl cs <;> simp

/-- The line decomposition of splitNl. -/
theorem splitNl_decomp : ∀ md : List Char,
    splitNl md =
      match md.dropWhile (fun c => !(c = '\n')) with
      | [] => [md]
      | _ :: rest => takeLine md :: splitNl rest := by
  intro md
  induction md with
  | nil => rfl
  | cons c cs ih =>
    by_cases hc : c = '\n'
    · subst hc
      simp [splitNl, List.dropWhile, takeLine, List.takeWhile_cons]
    · simp only [splitNl, hc, if_false, Bool.false_eq_true, List.dropWhile_cons,
        takeLine, List.takeWhile_cons]
      simp only [decide_False, Bool.not_false, if_true]
      rw [ih]
      cases hdw : cs.dropWhile (fun c => !(c = '\n')) with
      | nil => rfl
      | cons d rest => rfl

/-- Heads dropped by dropWhile satisfy the negated predicate. -/
theorem dropWhile_head_not (p : Char → Bool) :
    ∀ (l : List Char) c rest, l.dropWhile p = c :: rest → p c = false := by
  intro l
  induction l with
  | nil => intro c rest h; cases h
  | cons a l ih =>
    intro c rest h
    rw [List.dropWhile_cons] at h
    by_cases hp : p a = true
    · rw [if_pos hp] at h
      exact ih c rest h
    · rw [if_neg hp] at h
      obtain ⟨h1, -⟩ := List.cons.injEq .. ▸ h
      rw [← h1]
      exact Bool.not_eq_true _ ▸ hp

/-- The leftmost whole-text match of (?m)^#\s+(.+)$ agrees with the
line-by-line first match whenever every line beginning with '#' carries a
non-whitespace character after the '#'. -/
theorem scanTitle_lines : ∀ (n : Nat) (md : List Char), md.length ≤ n →
    (∀ l ∈ splitNl md, l.head? = some '#' →
      (l.drop 1).any (fun c => !(isRegexSpace c)) = true) →
    scanTitle true md = lineTitleCap (splitNl md) := by
  intro n
  induction n with
  | zero =>
    intro md hlen _
    rw [List.length_eq_zero.mp (Nat.le_zero.mp hlen)]
    rfl
  | succ n ih =>
    intro md hlen H
    cases hdw : md.dropWhile (fun c => !(c = '\n')) with
    | nil =>
      have hnl : ∀ c ∈ md, ¬ c = '\n' := by
        intro c hc
        have := List.dropWhile_eq_nil_iff.mp hdw c hc
        simpa using this
      have hsplit : splitNl md = [md] := by rw [splitNl_decomp md, hdw]
      rw [hsplit]
      show scanTitle true md =
        (match tryTitleAt md with
         | some t => some t
         | none => lineTitleCap [])
      cases md with
      | nil => rfl
      | cons c cs =>
        simp only [scanTitle]
        cases htry : tryTitleAt (c :: cs) with
        | some t => simp
        | none =>
          simp only
          have hc : ¬ c = '\n' := hnl c (List.mem_cons_self c cs)
          rw [show (decide (c = '\n') : Bool) = false from by simp [hc]]
          exact scanTitle_false_no_nl cs (fun d hd => hnl d (List.mem_cons_of_mem c hd))
    | cons c0 rest =>
      have hc0 : c0 = '\n' := by
        have := dropWhile_head_not _ md c0 rest hdw
        simpa using this
      subst hc0
      have hmd : md = takeLine md ++ '\n' :: rest := by
        conv_lhs => rw [← List.takeWhile_append_dropWhile (p := fun c => !(c = '\n')) (l := md)]
        rw [hdw]
        rfl
      have hnltl : ∀ c ∈ takeLine md, ¬ c = '\n' := by
        intro c hc
        have := List.mem_takeWhile_imp hc
        simpa using this
      have hsplit : splitNl md = takeLine md :: splitNl rest := by
        rw [splitNl_decomp md, hdw]
      have hlenrest : rest.length ≤ n := by
        have : md.length = (takeLine md).length + 1 + rest.length := by
          conv_lhs => rw [hmd]
          simp only [List.length_append, List.length_cons]
          omega
        omega
      have Hrest : ∀ l ∈ splitNl rest, l.head? = some '#' →
          (l.drop 1).any (fun c => !(isRegexSpace c)) = true := by
        intro l hl
        exact H l (hsplit ▸ List.mem_cons_of_mem _ hl)
      have Hline : (takeLine md).head? = some '#' →
          ((takeLine md).drop 1).any (fun c => !(isRegexSpace c)) = true :=
        H (takeLine md) (hsplit ▸ List.mem_cons_self _ _)
      rw [hsplit]
      show scanTitle true md =
        (match tryTitleAt (takeLine md) with
         | some t => some t
         | none => lineTitleCap (splitNl rest))
      rw [← ih rest hlenrest Hrest]
      rw [← tryTitleAt_line (takeLine md) rest hnltl Hline]
      conv_lhs => rw [hmd]
      cases hl : takeLine md with
      | nil =>
        simp only [List.nil_append, scanTitle]
        rw [show tryTitleAt ('\n' :: rest) = none from by simp [tryTitleAt]]
        simp
      | cons c l' =>
        have hc : ¬ c = '\n' := hnltl c (hl ▸ List.mem_cons_self c l')
        simp only [List.cons_append, scanTitle]
        cases htry : tryTitleAt ((c :: l') ++ '\n' :: rest) with
        | some t =>
          simp only [List.cons_append] at htry
          simp only [List.append_eq, if_true]
          rw [htry]
        | none =>
          simp only [List.cons_append] at htry
          simp only [List.append_eq, if_true]
          rw [htry]
          simp only
          rw [show (decide (c = '\n') : Bool) = false from by simp [hc]]
          exact scanTitle_through_line l' rest
            (fun d hd => hnltl d (hl ▸ List.mem_cons_of_mem c hd))

/-- Claim C6, counterexample: on "#\nTitle" no LINE matches ^#\s+(.+)$, so
the claim says the title is empty; but the regex \s+ crosses the newline, so
the code extracts "Title" from the next line. -/
theorem C6_counterexample :
    PostProcess "#\nTitle".toList sampleSpec =
      .ok { title := "Title".toList, digest := utf8Bytes "Title".toList,
            markdown := "#\nTitle".toList, coverHint := [], inlineImageHints := [] } ∧
    firstLineTitle "#\nTitle".toList = [] := by
  exact ⟨by rfl, by decide⟩

/-- Claim C6 (amended): the title is the trimmed capture of the first match
of (?m)^#\s+(.+)$ over the whole text, where \s+ may cross line boundaries;
provided every line beginning with '#' carries a non-whitespace character
after the '#', this equals the trimmed captured text of the first LINE
matching the pattern (empty when no line matches), as the claim states. -/
theorem C6_title_from_first_matching_line (raw : List Char) (spec : Spec)
    (H : ∀ l ∈ splitNl (trimSpace raw), l.head? = some '#' →
      (l.drop 1).any (fun c => !(isRegexSpace c)) = true) :
    extractTitle (trimSpace raw) = firstLineTitle (trimSpace raw) ∧
    ((trimSpace raw).isEmpty = false → ∃ d : Draft,
      PostProcess raw spec = .ok d ∧ d.title = firstLineTitle (trimSpace raw)) := by
  have heq : extractTitle (trimSpace raw) = firstLineTitle (trimSpace raw) := by
    unfold extractTitle firstLineTitle
    rw [scanTitle_lines (trimSpace raw).length (trimSpace raw) le_rfl H]
  refine ⟨heq, ?_⟩
  intro hne
  refine ⟨{ title := extractTitle (trimSpace raw),
            digest := if (extractDigest (trimSpace raw)).isEmpty then
                        genDefaultDigest (trimSpace raw) 120
                      else utf8Bytes (extractDigest (trimSpace raw)),
            markdown := trimSpace raw, coverHint := [], inlineImageHints := [] },
         ?_, heq⟩
  simp [PostProcess, hne]

theorem C6_witness :
    extractTitle (trimSpace "intro line\n#  Real  Title \nbody".toList) =
      firstLineTitle (trimSpace "intro line\n#  Real  Title \nbody".toList) :=
  (C6_title_from_first_matching_line "intro line\n#  Real  Title \nbody".toList
    sampleSpec (by decide)).1

end AWAP
